import Mathlib

/-!
Verification of the fractional-octave filter bank subsystem of pyfar
(`pyfar/dsp/filter/fractional_octaves.py`).

The Python source is embedded shallowly: machine floats become exact real
numbers, numpy arrays become lists or index functions, fallible code returns
`Except String`.  External collaborators (scipy's `butter`) are abstracted as
function parameters; repository code that is referenced but not part of the
sources at hand (`pyfar.classes.filter._extend_sos_coefficients`,
`pyfar.dsp.fft.irfft`) is modelled from the specification and marked as such.
-/

namespace Pyfar

/-- Embedding of `np.round` / `np.around`: round half to even
(IEEE "banker's rounding"), as numpy documents. -/
noncomputable def npRound (x : ℝ) : ℤ :=
  if Int.fract x = 1 / 2 then (if Even ⌊x⌋ then ⌊x⌋ else ⌊x⌋ + 1) else round x

theorem npRound_intCast (n : ℤ) : npRound (n : ℝ) = n := by
  unfold npRound
  rw [Int.fract_intCast]
  norm_num

theorem npRound_eq_round (x : ℝ) (h : Int.fract x ≠ 1 / 2) : npRound x = round x :=
  if_neg h

theorem npRound_ofNat (n : ℕ) : npRound (n : ℝ) = n := by
  have := npRound_intCast (n : ℤ)
  push_cast at this
  exact_mod_cast this

/-- Embedding of `np.arange(a, b)` on integer bounds: the integers
`a, a+1, ..., b-1`. -/
def arangeZ (a b : ℤ) : List ℤ :=
  (List.range (b - a).toNat).map (fun j : ℕ => a + (j : ℤ))

theorem arangeZ_length (a b : ℤ) : (arangeZ a b).length = (b - a).toNat := by
  unfold arangeZ
  rw [List.length_map, List.length_range]

/-- The IEC octave ratio `G = 10**(3/10)` (`octave_ratio` in the source). -/
noncomputable def octaveG : ℝ := (10 : ℝ) ^ ((3 : ℝ) / 10)

theorem octaveG_pos : 0 < octaveG := Real.rpow_pos_of_pos (by norm_num) _

theorem one_lt_octaveG : 1 < octaveG :=
  Real.one_lt_rpow_iff_of_pos (by norm_num) |>.mpr (Or.inl (by norm_num))

/-- Nominal octave-band center frequencies (IEC 61260:1:2014), from
`__center_frequencies_fractional_octaves_iec`. -/
noncomputable def nominalOctaves : List ℝ :=
  [31.5, 63, 125, 250, 500, 1000, 2000, 4000, 8000, 16000]

/-- Nominal third-octave-band center frequencies (IEC 61260:1:2014), from
`__center_frequencies_fractional_octaves_iec`. -/
noncomputable def nominalThirdOctaves : List ℝ :=
  [25, 31.5, 40, 50, 63, 80, 100, 125, 160,
   200, 250, 315, 400, 500, 630, 800, 1000,
   1250, 1600, 2000, 2500, 3150, 4000, 5000,
   6300, 8000, 10000, 12500, 16000, 20000]

/-- The exact IEC center frequency computed from a nominal one in
`__center_frequencies_fractional_octaves_iec`: indices are obtained by
rounding, with a half-index offset for even fraction counts. -/
noncomputable def iecExact (num_fractions : ℕ) (nominal : List ℝ) : List ℝ :=
  if num_fractions % 2 = 0 then
    nominal.map (fun nom =>
      1000 * octaveG ^
        ((2 * (((npRound (2 * (num_fractions : ℝ) * Real.log (nom / 1000) /
            Real.log octaveG - 1) : ℤ) : ℝ) / 2) + 1)
          / (num_fractions : ℝ) / 2))
  else
    nominal.map (fun nom =>
      1000 * octaveG ^
        (((npRound ((num_fractions : ℝ) * Real.log (nom / 1000) /
            Real.log octaveG) : ℤ) : ℝ) / (num_fractions : ℝ)))

/-- Embedding of `__center_frequencies_fractional_octaves_iec`.  For
`num_fractions` other than 1 and 3 the Python code leaves `nominal = None`
and then crashes on `np.log(None / reference_freq)` (a `TypeError`); this
is modelled as an error result. -/
noncomputable def centerFrequenciesIEC (num_fractions : ℕ) :
    Except String (List ℝ × List ℝ) :=
  if num_fractions = 1 then
    .ok (nominalOctaves, iecExact num_fractions nominalOctaves)
  else if num_fractions = 3 then
    .ok (nominalThirdOctaves, iecExact num_fractions nominalThirdOctaves)
  else
    .error "unsupported num_fractions: no nominal frequencies defined"

/-- Embedding of `__exact_center_frequencies_fractional_octaves`. -/
noncomputable def exactCenterFrequencies (num_fractions : ℕ) (lo hi : ℝ) :
    List ℝ :=
  let nMax := npRound ((num_fractions : ℝ) * Real.logb 2 (hi / 1000))
  let nMin := npRound ((num_fractions : ℝ) * Real.logb 2 (1000 / lo))
  (arangeZ (-nMin) (nMax + 1)).map
    (fun i : ℤ => 1000 * (2 : ℝ) ^ ((i : ℝ) / (num_fractions : ℝ)))

/-- Result of `fractional_octave_frequencies`: `nominal` is `none` when the
Python function returns `None` for the nominal frequencies, `cutoff` is
`none` when `return_cutoff=False`. -/
structure FreqResult where
  nominal : Option (List ℝ)
  exact : List ℝ
  cutoff : Option (List ℝ × List ℝ)

/-- Embedding of `fractional_octave_frequencies`: the `np.asarray` size
check, the order check on the two limits, the IEC branch with its nominal
range filter, the exact log-spaced branch, and the optional cutoff pair. -/
noncomputable def fractionalOctaveFrequencies (num_fractions : ℕ)
    (freq_range : List ℝ) (return_cutoff : Bool) : Except String FreqResult :=
  if freq_range.length ≠ 2 then
    .error "You need to specify a lower and upper limit frequency."
  else if freq_range.getD 0 0 > freq_range.getD 1 0 then
    .error "The second frequency needs to be higher than the first."
  else
    (if num_fractions = 1 ∨ num_fractions = 3 then
      (centerFrequenciesIEC num_fractions).map (fun p =>
        (some (p.1.filter (fun x =>
           decide (freq_range.getD 0 0 ≤ x ∧ x ≤ freq_range.getD 1 0))),
         ((p.1.zip p.2).filter (fun q =>
           decide (freq_range.getD 0 0 ≤ q.1 ∧
             q.1 ≤ freq_range.getD 1 0))).map Prod.snd))
    else
      Except.ok (none, exactCenterFrequencies num_fractions
        (freq_range.getD 0 0) (freq_range.getD 1 0))).map
      (fun p =>
        if return_cutoff then
          ⟨p.1, p.2,
           some (p.2.map (fun f =>
                   f * octaveG ^ ((-1 : ℝ) / 2 / (num_fractions : ℝ))),
                 p.2.map (fun f =>
                   f * octaveG ^ ((1 : ℝ) / 2 / (num_fractions : ℝ))))⟩
        else ⟨p.1, p.2, none⟩)

/-- A second-order section is a coefficient row `[b0, b1, b2, a0, a1, a2]`.
The unity-gain passthrough biquad. -/
def identityBiquad : List ℝ := [1, 0, 0, 1, 0, 0]

/-- Modelled from the spec: `pyfar.classes.filter._extend_sos_coefficients`
is not among the sources at hand.  Spec section 4.2: pad the section list up
to `order` sections with unity-gain passthrough biquads `[1,0,0,1,0,0]`. -/
def extendSosCoefficients (sos : List (List ℝ)) (order : ℕ) : List (List ℝ) :=
  sos ++ List.replicate (order - sos.length) identityBiquad

/-- Output of the SOS designer: emitted diagnostics plus the coefficient
tensor (band, section, coefficient). -/
structure SosDesign where
  warnings : List String
  sos : List (List (List ℝ))

/-- The Nyquist-normalized band edges
(`np.vstack((freqs_lower, freqs_upper)).T / sampling_rate * 2`). -/
noncomputable def sosWns (freqs_lower freqs_upper : List ℝ)
    (sampling_rate : ℝ) : List (ℝ × ℝ) :=
  (freqs_lower.zip freqs_upper).map
    (fun p => (p.1 / sampling_rate * 2, p.2 / sampling_rate * 2))

/-- The bands kept after `mask_skip = Wns[:, 0] >= 1` is applied. -/
noncomputable def sosKept (freqs_lower freqs_upper : List ℝ)
    (sampling_rate : ℝ) : List (ℝ × ℝ) :=
  (sosWns freqs_lower freqs_upper sampling_rate).filter
    (fun w => !decide (1 ≤ w.1))

/-- Embedding of `FractionalOctaveBands._get_coefficients`.  The scipy
Butterworth designers are abstract parameters: `butterBand order lo hi` is
`sgn.butter(order, [lo, hi], 'bandpass', output='sos')` and
`butterHigh order lo` is `sgn.butter(order, lo, 'highpass', output='sos')`. -/
noncomputable def sosBankCoefficients
    (butterBand : ℕ → ℝ → ℝ → List (List ℝ))
    (butterHigh : ℕ → ℝ → List (List ℝ))
    (freqs_lower freqs_upper : List ℝ) (sampling_rate : ℝ) (order : ℕ) :
    SosDesign :=
  let wns := sosWns freqs_lower freqs_upper sampling_rate
  let kept := sosKept freqs_lower freqs_upper sampling_rate
  let skipWarn : List String :=
    if kept.length = wns.length then []
    else ["Skipping bands above the Nyquist frequency"]
  let hpWarns : List String := kept.filterMap
    (fun w => if 1 < w.2 then some "The upper frequency limit is above the Nyquist frequency. Using a highpass filter instead of a bandpass" else none)
  let sos := kept.map (fun w =>
    if 1 < w.2 then extendSosCoefficients (butterHigh order w.1) order
    else butterBand order w.1 w.2)
  ⟨skipWarn ++ hpWarns, sos⟩

/-- A stand-in Butterworth band-pass designer used only to instantiate the
abstract designer in concrete witnesses: scipy's band-pass design returns
`order` sections of six coefficients. -/
def butterStub (n : ℕ) (lo hi : ℝ) : List (List ℝ) :=
  List.replicate n identityBiquad

/-- A stand-in Butterworth high-pass designer for witnesses: scipy's
high-pass design returns `ceil(order/2)` sections of six coefficients. -/
def butterHighStub (n : ℕ) (w : ℝ) : List (List ℝ) :=
  List.replicate ((n + 1) / 2) identityBiquad

/-- The `FractionalOctaveBands` object: the four constructor parameters plus
the state derived from them in `__init__`. -/
structure FOBank where
  num_fractions : ℕ
  sampling_rate : ℝ
  freq_range : List ℝ
  order : ℕ
  norm_frequencies : Option (List ℝ)
  exact_frequencies : List ℝ
  cutoff_frequencies : Option (List ℝ × List ℝ)
  coefficients : SosDesign

/-- The `n_bands` property: `len(self._exact_frequencies)`. -/
def FOBank.nBands (b : FOBank) : ℕ := b.exact_frequencies.length

/-- Embedding of `FractionalOctaveBands.__init__`. -/
noncomputable def mkFractionalOctaveBands
    (butterBand : ℕ → ℝ → ℝ → List (List ℝ))
    (butterHigh : ℕ → ℝ → List (List ℝ))
    (num_fractions : ℕ) (sampling_rate : ℝ) (freq_range : List ℝ)
    (order : ℕ) : Except String FOBank :=
  (fractionalOctaveFrequencies num_fractions freq_range true).map (fun r =>
    let fc := r.cutoff.getD ([], [])
    ⟨num_fractions, sampling_rate, freq_range, order, r.nominal, r.exact,
     r.cutoff,
     sosBankCoefficients butterBand butterHigh fc.1 fc.2 sampling_rate order⟩)

/-- Modelled from the spec: `pyfar.dsp.fft.irfft` with `'none'`
normalization is not among the sources at hand; spec section 6 requires it
to be the unscaled exact inverse of the forward real DFT, which is the
standard inverse real DFT with the conjugate-symmetric terms folded in. -/
noncomputable def irfftNone (G : ℕ → ℂ) (n : ℕ) (j : ℕ) : ℝ :=
  (1 / (n : ℝ)) * ∑ k ∈ Finset.range (n / 2 + 1),
    (if k = 0 ∨ 2 * k = n then 1 else 2) *
      (G k * Complex.exp (2 * Real.pi * Complex.I * (k : ℕ) * (j : ℕ)
        / (n : ℕ))).re

/-- `scipy.signal.windows.hann(M)` (symmetric):
`w[j] = 0.5 - 0.5*cos(2*pi*j/(M-1))`; external collaborator, standard
formula. -/
noncomputable def hannWindow (M j : ℕ) : ℝ :=
  1 / 2 - 1 / 2 * Real.cos (2 * Real.pi * (j : ℝ) / ((M : ℝ) - 1))

/-- One numpy row-slice assignment: set row `r`, bins `lo ≤ t < hi`, to
`f t`; all other entries unchanged. -/
def writeRow (g : ℕ → ℕ → ℝ) (r lo hi : ℕ) (f : ℕ → ℝ) : ℕ → ℕ → ℝ :=
  fun r' t => if r' = r ∧ lo ≤ t ∧ t < hi then f t else g r' t

/-- Python slice-index semantics on an axis of length `n`: negative indices
count from the end, and the result is clamped to `[0, n]`. -/
def pyIdx (n : ℕ) (i : ℤ) : ℕ :=
  min (if i < 0 then ((n : ℤ) + i).toNat else i.toNat) n

/-- The slope-steepening map `phi -> sin(pi/2 * phi)` (Antoni Eq. 20). -/
noncomputable def sinStep (x : ℝ) : ℝ := Real.sin (Real.pi / 2 * x)

/-- The ramp variable of a band boundary with overlap half-width `P`, at
window offset `p` (`p` runs over `-P ... P`): initialized as `p / P` over
`[-1, 1]`, steepened `slope` times, then shifted to `[0, 1]`. -/
noncomputable def phiRamp (P : ℤ) (slope : ℕ) (p : ℤ) : ℝ :=
  (sinStep^[slope] ((p : ℝ) / (P : ℝ)) + 1) / 2

/-- Fade-out value `cos(pi/2 * phi)` written to band `b-1`. -/
noncomputable def fadeOutVal (P : ℤ) (slope : ℕ) (p : ℤ) : ℝ :=
  Real.cos (Real.pi / 2 * phiRamp P slope p)

/-- Fade-in value `sin(pi/2 * phi)` written to band `b`. -/
noncomputable def fadeInVal (P : ℤ) (slope : ℕ) (p : ℤ) : ℝ :=
  Real.sin (Real.pi / 2 * phiRamp P slope p)

/-- Body of the loop over band boundaries `b = 1 .. num_bands-1` in
`ReconstructingFractionalOctaveBands._get_coefficients`: optional fade-out /
fade-in writes over the transition window, then the two unconditional
zeroing writes. -/
noncomputable def maskStep (k1 P : ℕ → ℤ) (slope nBins : ℕ)
    (g : ℕ → ℕ → ℝ) (b : ℕ) : ℕ → ℕ → ℝ :=
  let k1b := k1 b
  let pb := P b
  let g1 :=
    if 0 < pb then
      let lo := pyIdx nBins (k1b - pb)
      let hi := pyIdx nBins (k1b + pb + 1)
      let gOut := writeRow g (b - 1) lo hi
        (fun t => fadeOutVal pb slope ((t : ℤ) - k1b))
      writeRow gOut b lo hi (fun t => fadeInVal pb slope ((t : ℤ) - k1b))
    else g
  let g2 := writeRow g1 (b - 1) (pyIdx nBins (k1b + pb)) nBins (fun _ => 0)
  writeRow g2 b 0 (pyIdx nBins (k1b - pb)) (fun _ => 0)

/-- The magnitude-mask loop: start from `np.ones((num_bands, n_bins))` and
process each band boundary in order. -/
noncomputable def maskLoop (k1 P : ℕ → ℤ) (numBands slope nBins : ℕ) :
    ℕ → ℕ → ℝ :=
  (List.range' 1 (numBands - 1)).foldl (maskStep k1 P slope nBins)
    (fun _ _ => 1)

/-- Per-boundary overlap half-width in bins:
`P = np.round(overlap / 2 * (k_2 - k_m)).astype(int)`. -/
noncomputable def overlapP (overlap : ℝ) (km k2 : List ℤ) (b : ℕ) : ℤ :=
  npRound (overlap / 2 * ((k2.getD b 0 : ℝ) - (km.getD b 0 : ℝ)))

/-- The magnitude mask `g` of the reconstructing bank, before `g = g**2`. -/
noncomputable def reconMask (k1 km k2 : List ℤ) (overlap : ℝ)
    (slope nBins : ℕ) : ℕ → ℕ → ℝ :=
  maskLoop (fun b => k1.getD b 0) (overlapP overlap km k2) km.length slope
    nBins

/-- The squared magnitude mask (after `g = g**2` in the source). -/
noncomputable def reconMaskSq (k1 km k2 : List ℤ) (overlap : ℝ)
    (slope nBins : ℕ) (r t : ℕ) : ℝ :=
  (reconMask k1 km k2 overlap slope nBins r t) ^ 2

/-- Output of the FIR designer of the reconstructing bank: diagnostics,
the windowed time-domain taps (band, sample), and the band count of the
design. -/
structure ReconDesign where
  warnings : List String
  taps : ℕ → ℕ → ℝ
  numBands : ℕ

/-- Embedding of `ReconstructingFractionalOctaveBands._get_coefficients`:
frequency grid, Nyquist filtering on the center frequencies, DFT bin
indices by rounding, the magnitude-mask loop, squaring, the linear-phase
term `exp(-i 2 pi f n_samples/(2 sr))`, inverse real DFT, and the Hann
window. -/
noncomputable def reconCoefficients (num_fractions : ℕ) (freq_range : List ℝ)
    (overlap : ℝ) (slope : ℕ) (n_samples : ℕ) (sampling_rate : ℝ) :
    Except String ReconDesign :=
  (fractionalOctaveFrequencies num_fractions freq_range true).map (fun r =>
    let nBins := n_samples / 2 + 1
    let fc := r.cutoff.getD ([], [])
    let fm := r.exact.filter (fun f => decide (f < sampling_rate / 2))
    let warn : List String :=
      if fm.length = r.exact.length then []
      else ["Skipping bands above the Nyquist frequency"]
    let fLower := ((r.exact.zip fc.1).filter
      (fun q => decide (q.1 < sampling_rate / 2))).map Prod.snd
    let fUpper := ((r.exact.zip fc.2).filter
      (fun q => decide (q.1 < sampling_rate / 2))).map Prod.snd
    let k1 := fLower.map
      (fun f => npRound ((n_samples : ℝ) * f / sampling_rate))
    let km := fm.map
      (fun f => npRound ((n_samples : ℝ) * f / sampling_rate))
    let k2 := fUpper.map
      (fun f => npRound ((n_samples : ℝ) * f / sampling_rate))
    let gc : ℕ → ℕ → ℂ := fun b k =>
      ((reconMaskSq k1 km k2 overlap slope nBins b k : ℝ) : ℂ) *
        Complex.exp (-(Complex.I) *
          ((2 * Real.pi * ((k : ℝ) * sampling_rate / (n_samples : ℝ)) *
            ((n_samples : ℝ) / 2 / sampling_rate) : ℝ) : ℂ))
    ⟨warn,
     fun b j => irfftNone (gc b) n_samples j * hannWindow n_samples j,
     km.length⟩)

/-- Embedding of `ReconstructingFractionalOctaveBands.__init__`: parameter
validation followed by the coefficient computation. -/
noncomputable def mkReconstructingBands (num_fractions : ℕ)
    (freq_range : List ℝ) (overlap : ℝ) (slope : ℤ) (n_samples : ℕ)
    (sampling_rate : ℝ) : Except String ReconDesign :=
  if overlap < 0 ∨ 1 < overlap then
    .error "overlap must be between 0 and 1"
  else if slope < 0 then
    .error "slope must be a positive integer."
  else
    reconCoefficients num_fractions freq_range overlap slope.toNat n_samples
      sampling_rate

/-- Closed form of row `r` of the mask after the loop has processed the
band's own (fade-in) boundary `r` but not yet boundary `r + 1`. -/
noncomputable def leftProfile (k1 P : ℕ → ℤ) (slope : ℕ) (r t : ℕ) : ℝ :=
  if r = 0 then 1
  else if (t : ℤ) < k1 r - P r then 0
  else if 0 < P r ∧ (t : ℤ) ≤ k1 r + P r then
    fadeInVal (P r) slope ((t : ℤ) - k1 r)
  else 1

/-- Closed form of row `r` of the mask after the whole loop (valid when the
transition windows lie inside `[0, nBins)`). -/
noncomputable def bandProfile (k1 P : ℕ → ℤ) (slope numBands : ℕ)
    (r t : ℕ) : ℝ :=
  if r + 1 < numBands then
    if (t : ℤ) < k1 (r + 1) - P (r + 1) then leftProfile k1 P slope r t
    else if 0 < P (r + 1) ∧ (t : ℤ) < k1 (r + 1) + P (r + 1) then
      fadeOutVal (P (r + 1)) slope ((t : ℤ) - k1 (r + 1))
    else 0
  else leftProfile k1 P slope r t

theorem pyIdx_eq (n : ℕ) (i : ℤ) (h0 : 0 ≤ i) (hn : i ≤ (n : ℤ)) :
    pyIdx n i = i.toNat := by
  unfold pyIdx
  rw [if_neg (not_lt.mpr h0), min_eq_left (by omega)]

set_option maxHeartbeats 1000000 in
theorem maskStep_apply (k1 P : ℕ → ℤ) (slope nBins : ℕ) (g : ℕ → ℕ → ℝ)
    (b r t : ℕ) (hb1 : 1 ≤ b) (hP : 0 ≤ P b) (hlo : 0 ≤ k1 b - P b)
    (hhi : k1 b + P b < nBins) (ht : t < nBins) :
    maskStep k1 P slope nBins g b r t =
      if r = b - 1 then
        (if (t : ℤ) < k1 b - P b then g r t
         else if 0 < P b ∧ (t : ℤ) < k1 b + P b then
           fadeOutVal (P b) slope ((t : ℤ) - k1 b)
         else 0)
      else if r = b then
        (if (t : ℤ) < k1 b - P b then 0
         else if 0 < P b ∧ (t : ℤ) ≤ k1 b + P b then
           fadeInVal (P b) slope ((t : ℤ) - k1 b)
         else g r t)
      else g r t := by
  have h1 : pyIdx nBins (k1 b - P b) = (k1 b - P b).toNat :=
    pyIdx_eq _ _ hlo (by omega)
  have h2 : pyIdx nBins (k1 b + P b) = (k1 b + P b).toNat :=
    pyIdx_eq _ _ (by omega) (by omega)
  have h3 : pyIdx nBins (k1 b + P b + 1) = (k1 b + P b + 1).toNat :=
    pyIdx_eq _ _ (by omega) (by omega)
  simp only [maskStep, writeRow, ite_apply, h1, h2, h3]
  rcases eq_or_ne r (b - 1) with hr1 | hr1
  · subst hr1
    split_ifs <;> first | rfl | omega
  · rcases eq_or_ne r b with hr2 | hr2
    · subst hr2
      split_ifs <;> first | rfl | omega
    · split_ifs <;> first | rfl | omega

theorem maskLoop_invariant (k1 P : ℕ → ℤ) (slope nBins B : ℕ)
    (hb : ∀ b, 1 ≤ b → b < B →
      0 ≤ P b ∧ 0 ≤ k1 b - P b ∧ k1 b + P b < nBins) :
    ∀ j, j + 1 ≤ B →
      (∀ r t, r + 1 ≤ j → t < nBins →
        (List.range' 1 j).foldl (maskStep k1 P slope nBins) (fun _ _ => 1) r t
          = bandProfile k1 P slope B r t) ∧
      (∀ t, t < nBins →
        (List.range' 1 j).foldl (maskStep k1 P slope nBins) (fun _ _ => 1) j t
          = leftProfile k1 P slope j t) ∧
      (∀ r t, j < r → t < nBins →
        (List.range' 1 j).foldl (maskStep k1 P slope nBins) (fun _ _ => 1) r t
          = 1) := by
  intro j
  induction j with
  | zero =>
    intro _
    refine ⟨fun r t hr _ => absurd hr (by omega), fun t ht => ?_,
      fun r t hr ht => rfl⟩
    simp [leftProfile]
  | succ j ih =>
    intro hjB
    obtain ⟨ihA, ihB, ihC⟩ := ih (by omega)
    have hfold : ∀ r t,
        (List.range' 1 (j+1)).foldl (maskStep k1 P slope nBins)
            (fun _ _ => 1) r t
          = maskStep k1 P slope nBins
              ((List.range' 1 j).foldl (maskStep k1 P slope nBins)
                (fun _ _ => 1)) (j+1) r t := by
      intro r t
      have h1 : 1 + 1 * j = j + 1 := by omega
      rw [List.range'_concat, h1, List.foldl_append, List.foldl_cons,
        List.foldl_nil]
    have hb1 : 1 ≤ j + 1 := by omega
    have hbB : j + 1 < B := by omega
    obtain ⟨hP, hlo, hhi⟩ := hb (j+1) hb1 hbB
    refine ⟨?_, ?_, ?_⟩
    · intro r t hr ht
      rw [hfold, maskStep_apply k1 P slope nBins _ (j+1) r t hb1 hP hlo hhi ht]
      simp only [Nat.add_sub_cancel]
      rcases eq_or_ne r j with he | he
      · subst he
        rw [if_pos rfl, bandProfile, if_pos (show r + 1 < B by omega)]
        split_ifs with h1 h2
        · exact ihB t ht
        · rfl
        · rfl
      · have hrb : r ≠ j + 1 := by omega
        rw [if_neg he, if_neg hrb]
        exact ihA r t (by omega) ht
    · intro t ht
      rw [hfold, maskStep_apply k1 P slope nBins _ (j+1) (j+1) t hb1 hP hlo
        hhi ht]
      simp only [Nat.add_sub_cancel]
      rw [if_neg (show j + 1 ≠ j by omega), if_pos trivial, leftProfile,
        if_neg (show j + 1 ≠ 0 by omega)]
      split_ifs with h1 h2
      · rfl
      · rfl
      · exact ihC (j+1) t (by omega) ht
    · intro r t hr ht
      rw [hfold, maskStep_apply k1 P slope nBins _ (j+1) r t hb1 hP hlo hhi ht]
      simp only [Nat.add_sub_cancel]
      rw [if_neg (show r ≠ j by omega), if_neg (show r ≠ j + 1 by omega)]
      exact ihC r t (by omega) ht

theorem maskLoop_eq_bandProfile (k1 P : ℕ → ℤ) (slope nBins B : ℕ)
    (hB : 1 ≤ B)
    (hb : ∀ b, 1 ≤ b → b < B →
      0 ≤ P b ∧ 0 ≤ k1 b - P b ∧ k1 b + P b < nBins)
    (r t : ℕ) (hr : r < B) (ht : t < nBins) :
    maskLoop k1 P B slope nBins r t = bandProfile k1 P slope B r t := by
  obtain ⟨hA, hBmid, _⟩ :=
    maskLoop_invariant k1 P slope nBins B hb (B - 1) (by omega)
  unfold maskLoop
  rcases Nat.lt_or_ge r (B - 1) with hlt | hge
  · exact hA r t (by omega) ht
  · have hrB : r = B - 1 := by omega
    subst hrB
    rw [hBmid t ht, bandProfile, if_neg (show ¬ (B - 1 + 1 < B) by omega)]

theorem sinStep_iter_mem (slope : ℕ) (x : ℝ) (hx : -1 ≤ x ∧ x ≤ 1) :
    -1 ≤ sinStep^[slope] x ∧ sinStep^[slope] x ≤ 1 := by
  induction slope generalizing x with
  | zero => simpa using hx
  | succ n ih =>
    rw [Function.iterate_succ_apply]
    exact ih _ ⟨Real.neg_one_le_sin _, Real.sin_le_one _⟩

theorem sinStep_iter_zero (slope : ℕ) : sinStep^[slope] (0 : ℝ) = 0 := by
  induction slope with
  | zero => rfl
  | succ n ih =>
    rw [Function.iterate_succ_apply]
    simpa [sinStep] using ih

theorem sinStep_iter_one (slope : ℕ) : sinStep^[slope] (1 : ℝ) = 1 := by
  induction slope with
  | zero => rfl
  | succ n ih =>
    rw [Function.iterate_succ_apply]
    have h : sinStep 1 = 1 := by
      unfold sinStep
      rw [mul_one, Real.sin_pi_div_two]
    rw [h, ih]

theorem phiRamp_mem (P : ℤ) (slope : ℕ) (p : ℤ) (hP : 0 < P)
    (h1 : -P ≤ p) (h2 : p ≤ P) :
    0 ≤ phiRamp P slope p ∧ phiRamp P slope p ≤ 1 := by
  have hPr : (0 : ℝ) < (P : ℝ) := by exact_mod_cast hP
  have hx : -1 ≤ (p : ℝ) / (P : ℝ) ∧ (p : ℝ) / (P : ℝ) ≤ 1 := by
    constructor
    · rw [le_div_iff₀ hPr]
      have : (-P : ℝ) ≤ (p : ℝ) := by exact_mod_cast h1
      linarith
    · rw [div_le_one hPr]
      exact_mod_cast h2
  obtain ⟨hl, hr⟩ := sinStep_iter_mem slope _ hx
  unfold phiRamp
  constructor <;> linarith

theorem phiRamp_zero (P : ℤ) (slope : ℕ) : phiRamp P slope 0 = 1 / 2 := by
  unfold phiRamp
  rw [Int.cast_zero, zero_div, sinStep_iter_zero]
  norm_num

theorem phiRamp_top (P : ℤ) (slope : ℕ) (hP : P ≠ 0) :
    phiRamp P slope P = 1 := by
  unfold phiRamp
  rw [div_self (by exact_mod_cast hP), sinStep_iter_one]
  norm_num

theorem fadeInVal_mem (P : ℤ) (slope : ℕ) (p : ℤ) (hP : 0 < P)
    (h1 : -P ≤ p) (h2 : p ≤ P) :
    0 ≤ fadeInVal P slope p ∧ fadeInVal P slope p ≤ 1 := by
  obtain ⟨h0, hle⟩ := phiRamp_mem P slope p hP h1 h2
  have hpi := Real.pi_pos
  refine ⟨Real.sin_nonneg_of_nonneg_of_le_pi (by positivity) ?_,
    Real.sin_le_one _⟩
  nlinarith

theorem fadeOutVal_mem (P : ℤ) (slope : ℕ) (p : ℤ) (hP : 0 < P)
    (h1 : -P ≤ p) (h2 : p ≤ P) :
    0 ≤ fadeOutVal P slope p ∧ fadeOutVal P slope p ≤ 1 := by
  obtain ⟨h0, hle⟩ := phiRamp_mem P slope p hP h1 h2
  have hpi := Real.pi_pos
  refine ⟨Real.cos_nonneg_of_mem_Icc ⟨by nlinarith, by nlinarith⟩,
    Real.cos_le_one _⟩

theorem fade_sq_add_one (P : ℤ) (slope : ℕ) (p : ℤ) :
    fadeOutVal P slope p ^ 2 + fadeInVal P slope p ^ 2 = 1 := by
  unfold fadeOutVal fadeInVal
  rw [add_comm]
  exact Real.sin_sq_add_cos_sq _

theorem fadeInVal_top (P : ℤ) (slope : ℕ) (hP : P ≠ 0) :
    fadeInVal P slope P = 1 := by
  unfold fadeInVal
  rw [phiRamp_top P slope hP, mul_one, Real.sin_pi_div_two]

theorem fadeInVal_center_sq (P : ℤ) (slope : ℕ) :
    fadeInVal P slope 0 ^ 2 = 1 / 2 := by
  unfold fadeInVal
  rw [phiRamp_zero]
  have h : Real.pi / 2 * (1 / 2) = Real.pi / 4 := by ring
  rw [h, Real.sin_pi_div_four, div_pow, Real.sq_sqrt (by norm_num : (2:ℝ) ≥ 0)]
  norm_num

theorem fadeOutVal_center_sq (P : ℤ) (slope : ℕ) :
    fadeOutVal P slope 0 ^ 2 = 1 / 2 := by
  unfold fadeOutVal
  rw [phiRamp_zero]
  have h : Real.pi / 2 * (1 / 2) = Real.pi / 4 := by ring
  rw [h, Real.cos_pi_div_four, div_pow, Real.sq_sqrt (by norm_num : (2:ℝ) ≥ 0)]
  norm_num

theorem leftProfile_of_lt (k1 P : ℕ → ℤ) (slope : ℕ) (r t : ℕ) (hr : r ≠ 0)
    (h : (t : ℤ) < k1 r - P r) : leftProfile k1 P slope r t = 0 := by
  unfold leftProfile
  rw [if_neg hr, if_pos h]

theorem leftProfile_of_ge (k1 P : ℕ → ℤ) (slope : ℕ) (r t : ℕ)
    (hP : 0 ≤ P r) (h : k1 r + P r ≤ (t : ℤ)) :
    leftProfile k1 P slope r t = 1 := by
  unfold leftProfile
  rcases eq_or_ne r 0 with h0 | h0
  · rw [if_pos h0]
  · rw [if_neg h0, if_neg (by omega)]
    split_ifs with hw
    · have hp : (t : ℤ) - k1 r = P r := by omega
      rw [hp]
      exact fadeInVal_top _ _ (by omega)
    · rfl

theorem bandProfile_mem (k1 P : ℕ → ℤ) (slope B : ℕ) (r t : ℕ) :
    0 ≤ bandProfile k1 P slope B r t ∧ bandProfile k1 P slope B r t ≤ 1 := by
  unfold bandProfile leftProfile
  split_ifs <;>
    first
      | (exact fadeOutVal_mem _ _ _ (by omega) (by omega) (by omega))
      | (exact fadeInVal_mem _ _ _ (by omega) (by omega) (by omega))
      | norm_num

theorem window_chain (k1 P : ℕ → ℤ) (B : ℕ)
    (hP : ∀ b, 1 ≤ b → b < B → 0 ≤ P b)
    (hsep : ∀ b, 1 ≤ b → b + 1 < B → k1 b + P b < k1 (b+1) - P (b+1)) :
    ∀ a b, 1 ≤ a → a < b → b < B → k1 a + P a < k1 b - P b := by
  intro a b ha hab hbB
  induction b with
  | zero => omega
  | succ n ih =>
    rcases eq_or_ne a n with he | he
    · subst he
      exact hsep a ha (by omega)
    · have h1 := ih (by omega) (by omega)
      have h2 := hsep n (by omega) (by omega)
      have h3 := hP n (by omega) (by omega)
      omega

theorem bandProfile_partition (k1 P : ℕ → ℤ) (slope B : ℕ) (hB : 1 ≤ B)
    (hP : ∀ b, 1 ≤ b → b < B → 0 ≤ P b)
    (hsep : ∀ b, 1 ≤ b → b + 1 < B → k1 b + P b < k1 (b+1) - P (b+1))
    (t : ℕ) :
    ∑ r ∈ Finset.range B, bandProfile k1 P slope B r t ^ 2 = 1 := by
  classical
  set p : ℕ → Prop := fun b => 1 ≤ b ∧ b < B ∧ k1 b - P b ≤ (t : ℤ) with hp
  set m := Nat.findGreatest p (B - 1) with hm
  have hmle : m ≤ B - 1 := Nat.findGreatest_le _
  have hup : ∀ b, m < b → 1 ≤ b → b < B → (t : ℤ) < k1 b - P b := by
    intro b h1 h2 h3
    have hnb := Nat.findGreatest_is_greatest (P := p) h1 (by omega)
    rw [hp] at hnb
    simp only [not_and, not_le] at hnb
    exact hnb h2 h3
  rcases eq_or_ne m 0 with hm0 | hm0
  · -- every transition window starts above `t`: only band 0 is alive
    have hrow0 : ∀ r, 1 ≤ r → r < B → bandProfile k1 P slope B r t = 0 := by
      intro r h1 h2
      have hself := hup r (by omega) h1 h2
      unfold bandProfile
      split_ifs with c1 c2 c3
      · exact leftProfile_of_lt k1 P slope r t (by omega) hself
      · exact absurd (hup (r+1) (by omega) (by omega) (by omega)) (by omega)
      · exact absurd (hup (r+1) (by omega) (by omega) (by omega)) (by omega)
      · exact leftProfile_of_lt k1 P slope r t (by omega) hself
    rw [Finset.sum_eq_single_of_mem 0 (Finset.mem_range.mpr (by omega))
      (fun r hr hne => by rw [hrow0 r (by omega) (Finset.mem_range.mp hr)]; ring)]
    have h0 : bandProfile k1 P slope B 0 t = 1 := by
      unfold bandProfile
      split_ifs with c1 c2 c3
      · unfold leftProfile
        rw [if_pos rfl]
      · exact absurd (hup (0+1) (by omega) (by omega) (by omega)) (by omega)
      · exact absurd (hup (0+1) (by omega) (by omega) (by omega)) (by omega)
      · unfold leftProfile
        rw [if_pos rfl]
    rw [h0]
    norm_num
  · -- `m` is the last boundary whose window starts at or below `t`
    have hpm : p m := Nat.findGreatest_of_ne_zero hm.symm hm0
    rw [hp] at hpm
    obtain ⟨hm1, hmB, hmt⟩ := hpm
    have hPm := hP m hm1 hmB
    have hzero_hi : ∀ r, m < r → r < B → bandProfile k1 P slope B r t = 0 := by
      intro r h1 h2
      have hself := hup r h1 (by omega) h2
      unfold bandProfile
      split_ifs with c1 c2 c3
      · exact leftProfile_of_lt k1 P slope r t (by omega) hself
      · exact absurd (hup (r+1) (by omega) (by omega) (by omega)) (by omega)
      · exact absurd (hup (r+1) (by omega) (by omega) (by omega)) (by omega)
      · exact leftProfile_of_lt k1 P slope r t (by omega) hself
    have hchain := window_chain k1 P B hP hsep
    rcases lt_or_ge (t : ℤ) (k1 m + P m) with hA | hB2
    · -- inside the window of boundary `m`: the cos/sin crossover
      have hPm0 : 0 < P m := by omega
      have hzero_lo : ∀ r, r + 1 < m → bandProfile k1 P slope B r t = 0 := by
        intro r h1
        have hend := hchain (r+1) m (by omega) (by omega) hmB
        have hPr1 := hP (r+1) (by omega) (by omega)
        unfold bandProfile
        rw [if_pos (by omega), if_neg (by omega), if_neg (by omega)]
      have hrow_out : bandProfile k1 P slope B (m-1) t
          = fadeOutVal (P m) slope ((t : ℤ) - k1 m) := by
        unfold bandProfile
        have hmm : m - 1 + 1 = m := by omega
        rw [hmm, if_pos (by omega), if_neg (by omega), if_pos (by omega)]
      have hrow_in : bandProfile k1 P slope B m t
          = fadeInVal (P m) slope ((t : ℤ) - k1 m) := by
        unfold bandProfile
        have hlp : leftProfile k1 P slope m t
            = fadeInVal (P m) slope ((t : ℤ) - k1 m) := by
          unfold leftProfile
          rw [if_neg (by omega), if_neg (by omega), if_pos (by omega)]
        split_ifs with c1 c2 c3
        · exact hlp
        · exact absurd (hup (m+1) (by omega) (by omega) (by omega)) (by omega)
        · exact absurd (hup (m+1) (by omega) (by omega) (by omega)) (by omega)
        · exact hlp
      have hsub : ({m - 1, m} : Finset ℕ) ⊆ Finset.range B := by
        intro x hx
        simp only [Finset.mem_insert, Finset.mem_singleton] at hx
        rcases hx with h | h <;> (subst h; exact Finset.mem_range.mpr (by omega))
      rw [← Finset.sum_subset hsub]
      · rw [Finset.sum_pair (by omega : m - 1 ≠ m), hrow_out, hrow_in]
        exact fade_sq_add_one _ _ _
      · intro x hx hnx
        simp only [Finset.mem_insert, Finset.mem_singleton, not_or] at hnx
        have hxB := Finset.mem_range.mp hx
        rcases Nat.lt_or_ge x m with hxm | hxm
        · have hx1 : x + 1 < m := by omega
          rw [hzero_lo x hx1]
          ring
        · have hxm' : m < x := by omega
          rw [hzero_hi x hxm' hxB]
          ring
    · -- past the window of boundary `m`: band `m` alone is at unity
      have hrow_one : bandProfile k1 P slope B m t = 1 := by
        unfold bandProfile
        split_ifs with c1 c2 c3
        · exact leftProfile_of_ge k1 P slope m t hPm hB2
        · exact absurd (hup (m+1) (by omega) (by omega) (by omega)) (by omega)
        · exact absurd (hup (m+1) (by omega) (by omega) (by omega)) (by omega)
        · exact leftProfile_of_ge k1 P slope m t hPm hB2
      have hzero_lo : ∀ r, r < m → bandProfile k1 P slope B r t = 0 := by
        intro r h1
        have hre : r + 1 ≤ m := by omega
        have hPr1 := hP (r+1) (by omega) (by omega)
        have hend : k1 (r+1) + P (r+1) ≤ (t : ℤ) := by
          rcases eq_or_ne (r+1) m with he | he
          · rw [he]; exact hB2
          · have := hchain (r+1) m (by omega) (by omega) hmB
            omega
        unfold bandProfile
        rw [if_pos (by omega), if_neg (by omega), if_neg (by omega)]
      rw [Finset.sum_eq_single_of_mem m (Finset.mem_range.mpr hmB)
        (fun r hr hne => ?_)]
      · rw [hrow_one]; norm_num
      · rcases Nat.lt_or_ge r m with h | h
        · rw [hzero_lo r h]; ring
        · rw [hzero_hi r (by omega) (Finset.mem_range.mp hr)]; ring

theorem npRound_eq_intCast (x : ℝ) (n : ℤ) (h : x = (n : ℝ)) :
    npRound x = n := by
  rw [h, npRound_intCast]

theorem reconMask_eq_bandProfile (k1 km k2 : List ℤ) (overlap : ℝ)
    (slope nBins : ℕ) (hB : 1 ≤ km.length)
    (hwin : ∀ b, 1 ≤ b → b < km.length →
      0 ≤ overlapP overlap km k2 b ∧
      0 ≤ k1.getD b 0 - overlapP overlap km k2 b ∧
      k1.getD b 0 + overlapP overlap km k2 b < nBins)
    (r t : ℕ) (hr : r < km.length) (ht : t < nBins) :
    reconMask k1 km k2 overlap slope nBins r t
      = bandProfile (fun b => k1.getD b 0) (overlapP overlap km k2) slope
          km.length r t :=
  maskLoop_eq_bandProfile _ _ _ _ _ hB hwin r t hr ht

/-- C2: for inputs of `ReconstructingFractionalOctaveBands._get_coefficients`
whose transition windows are pairwise disjoint (equivalently, in increasing
boundary order) and lie inside `[0, n_bins)`, the squared magnitude masks
(after the `g = g**2` step) form an exact partition of unity: at every bin
the mask values over all bands sum to exactly 1, and each individual
squared mask value lies in `[0, 1]`. -/
theorem recon_maskSq_partition_of_disjoint
    (k1 km k2 : List ℤ) (overlap : ℝ) (slope nBins : ℕ)
    (hl1 : k1.length = km.length) (hl2 : k2.length = km.length)
    (hB : 1 ≤ km.length)
    (hwin : ∀ b, 1 ≤ b → b < km.length →
      0 ≤ overlapP overlap km k2 b ∧
      0 ≤ k1.getD b 0 - overlapP overlap km k2 b ∧
      k1.getD b 0 + overlapP overlap km k2 b < nBins)
    (hsep : ∀ b, 1 ≤ b → b + 1 < km.length →
      k1.getD b 0 + overlapP overlap km k2 b
        < k1.getD (b+1) 0 - overlapP overlap km k2 (b+1))
    (t : ℕ) (ht : t < nBins) :
    (∑ r ∈ Finset.range km.length,
        reconMaskSq k1 km k2 overlap slope nBins r t) = 1 ∧
    ∀ r, r < km.length →
      0 ≤ reconMaskSq k1 km k2 overlap slope nBins r t ∧
      reconMaskSq k1 km k2 overlap slope nBins r t ≤ 1 := by
  have hmask : ∀ r, r < km.length →
      reconMask k1 km k2 overlap slope nBins r t
        = bandProfile (fun b => k1.getD b 0) (overlapP overlap km k2) slope
            km.length r t := fun r hr =>
    reconMask_eq_bandProfile k1 km k2 overlap slope nBins hB hwin r t hr ht
  constructor
  · have hcong : ∑ r ∈ Finset.range km.length,
        reconMaskSq k1 km k2 overlap slope nBins r t
        = ∑ r ∈ Finset.range km.length,
            bandProfile (fun b => k1.getD b 0) (overlapP overlap km k2) slope
              km.length r t ^ 2 :=
      Finset.sum_congr rfl (fun r hr => by
        rw [reconMaskSq, hmask r (Finset.mem_range.mp hr)])
    rw [hcong]
    exact bandProfile_partition _ _ slope _ hB
      (fun b h1 h2 => (hwin b h1 h2).1) hsep t
  · intro r hr
    have hm := bandProfile_mem (fun b => k1.getD b 0)
      (overlapP overlap km k2) slope km.length r t
    rw [reconMaskSq, hmask r hr]
    exact ⟨sq_nonneg _, pow_le_one₀ hm.1 hm.2⟩

theorem overlapP_ex1 : overlapP 1 [0, 12] [0, 16] 1 = 2 := by
  unfold overlapP
  refine npRound_eq_intCast _ 2 ?_
  simp only [List.getD_cons_succ, List.getD_cons_zero]
  push_cast
  norm_num

/-- Witness for C2: a concrete two-band input (`k1 = [0, 8]`, `km = [0,
12]`, `k2 = [0, 16]`, `overlap = 1`, `slope = 0`, 16 bins) with a disjoint
in-range transition window; the squared masks sum to 1 at bin 3. -/
theorem recon_maskSq_partition_of_disjoint_witness :
    (∑ r ∈ Finset.range ([0, 12] : List ℤ).length,
        reconMaskSq [0, 8] [0, 12] [0, 16] 1 0 16 r 3) = 1 := by
  refine (recon_maskSq_partition_of_disjoint [0, 8] [0, 12] [0, 16] 1 0 16
    rfl rfl (by norm_num) ?_ ?_ 3 (by norm_num)).1
  · intro b h1 h2
    simp only [List.length_cons, List.length_nil] at h2
    have hb : b = 1 := by omega
    subst hb
    rw [overlapP_ex1]
    simp only [List.getD_cons_succ, List.getD_cons_zero]
    norm_num
  · intro b h1 h2
    simp only [List.length_cons, List.length_nil] at h2
    omega

theorem maskLoop_boundary_crossover (k1f Pf : ℕ → ℤ) (slope nBins B : ℕ)
    (hB : 1 ≤ B)
    (hwin : ∀ c, 1 ≤ c → c < B →
      0 ≤ Pf c ∧ 0 ≤ k1f c - Pf c ∧ k1f c + Pf c < nBins)
    (b : ℕ) (hb1 : 1 ≤ b) (hbB : b < B) (hP : 0 < Pf b)
    (hnext : b + 1 < B → k1f b + Pf b < k1f (b+1) - Pf (b+1)) :
    ∀ p : ℤ, -(Pf b) ≤ p → p ≤ Pf b →
      maskLoop k1f Pf B slope nBins (b - 1) (k1f b + p).toNat
        = Real.cos (Real.pi / 2 * phiRamp (Pf b) slope p) ∧
      maskLoop k1f Pf B slope nBins b (k1f b + p).toNat
        = Real.sin (Real.pi / 2 * phiRamp (Pf b) slope p) := by
  obtain ⟨hPnn, hlo, hhi⟩ := hwin b hb1 hbB
  intro p hp1 hp2
  set t := (k1f b + p).toNat with htdef
  have htz : (t : ℤ) = k1f b + p := Int.toNat_of_nonneg (by omega)
  have htB : t < nBins := by omega
  have hmask1 := maskLoop_eq_bandProfile k1f Pf slope nBins B hB hwin (b-1)
    t (by omega) htB
  have hmask2 := maskLoop_eq_bandProfile k1f Pf slope nBins B hB hwin b t
    hbB htB
  have hdiff : (t : ℤ) - k1f b = p := by omega
  constructor
  · rw [hmask1]
    unfold bandProfile
    have hbb : b - 1 + 1 = b := by omega
    rw [hbb, if_pos hbB, if_neg (by omega)]
    rcases eq_or_ne p (Pf b) with he | he
    · rw [if_neg (by omega)]
      rw [he, phiRamp_top _ _ (by omega), mul_one, Real.cos_pi_div_two]
    · rw [if_pos ⟨hP, by omega⟩]
      unfold fadeOutVal
      rw [hdiff]
  · rw [hmask2]
    have hleft : leftProfile k1f Pf slope b t
        = Real.sin (Real.pi / 2 * phiRamp (Pf b) slope p) := by
      unfold leftProfile
      rw [if_neg (by omega), if_neg (by omega), if_pos ⟨hP, by omega⟩]
      unfold fadeInVal
      rw [hdiff]
    unfold bandProfile
    rcases Nat.lt_or_ge (b + 1) B with hb2 | hb2
    · have hs := hnext hb2
      rw [if_pos hb2, if_pos (by omega)]
      exact hleft
    · rw [if_neg (by omega)]
      exact hleft

theorem centerFrequenciesIEC_error_iff (nf : ℕ) :
    (∃ e, centerFrequenciesIEC nf = Except.error e) ↔ nf ≠ 1 ∧ nf ≠ 3 := by
  unfold centerFrequenciesIEC
  rcases eq_or_ne nf 1 with h1 | h1
  · subst h1
    simp
  · rw [if_neg h1]
    rcases eq_or_ne nf 3 with h3 | h3
    · subst h3
      simp
    · rw [if_neg h3]
      simp [h1, h3]

theorem fof_ok_of_valid (nf : ℕ) (fr : List ℝ) (rc : Bool)
    (hlen : fr.length = 2) (h : ¬ fr.getD 0 0 > fr.getD 1 0) :
    ∃ r, fractionalOctaveFrequencies nf fr rc = Except.ok r := by
  unfold fractionalOctaveFrequencies
  rw [if_neg (by omega), if_neg h]
  rcases Decidable.em (nf = 1 ∨ nf = 3) with h13 | h13
  · rw [if_pos h13]
    have hiec : ∃ p, centerFrequenciesIEC nf = Except.ok p := by
      rcases h13 with rfl | rfl
      · exact ⟨_, rfl⟩
      · exact ⟨_, rfl⟩
    obtain ⟨p, hp⟩ := hiec
    rw [hp]
    exact ⟨_, rfl⟩
  · rw [if_neg h13]
    exact ⟨_, rfl⟩

theorem fof_error_iff (nf : ℕ) (fr : List ℝ) (rc : Bool) :
    (∃ e, fractionalOctaveFrequencies nf fr rc = Except.error e) ↔
      fr.length ≠ 2 ∨ fr.getD 0 0 > fr.getD 1 0 := by
  by_cases hlen : fr.length = 2
  · by_cases hgt : fr.getD 0 0 > fr.getD 1 0
    · refine iff_of_true ?_ (Or.inr hgt)
      exact ⟨_, by
        unfold fractionalOctaveFrequencies
        rw [if_neg (by omega), if_pos hgt]⟩
    · obtain ⟨r, hr⟩ := fof_ok_of_valid nf fr rc hlen hgt
      refine iff_of_false ?_ (by tauto)
      rintro ⟨e, he⟩
      rw [hr] at he
      exact Except.noConfusion he
  · refine iff_of_true ?_ (Or.inl hlen)
    exact ⟨_, by
      unfold fractionalOctaveFrequencies
      rw [if_pos hlen]⟩

theorem recon_error_iff (nf : ℕ) (fr : List ℝ) (overlap : ℝ) (slope : ℤ)
    (nsamp : ℕ) (sr : ℝ) :
    (∃ e, mkReconstructingBands nf fr overlap slope nsamp sr
        = Except.error e) ↔
      overlap < 0 ∨ 1 < overlap ∨ slope < 0 ∨ fr.length ≠ 2
        ∨ fr.getD 0 0 > fr.getD 1 0 := by
  unfold mkReconstructingBands
  by_cases h1 : overlap < 0 ∨ 1 < overlap
  · rw [if_pos h1]
    exact iff_of_true ⟨_, rfl⟩ (by tauto)
  · rw [if_neg h1]
    by_cases h2 : slope < 0
    · rw [if_pos h2]
      exact iff_of_true ⟨_, rfl⟩ (by tauto)
    · rw [if_neg h2]
      unfold reconCoefficients
      constructor
      · rintro ⟨e, he⟩
        rcases hx : fractionalOctaveFrequencies nf fr true with e' | r
        · have := (fof_error_iff nf fr true).mp ⟨e', hx⟩
          tauto
        · rw [hx] at he
          exact Except.noConfusion he
      · intro hr
        have hfr : fr.length ≠ 2 ∨ fr.getD 0 0 > fr.getD 1 0 := by tauto
        obtain ⟨e, he⟩ := (fof_error_iff nf fr true).mpr hfr
        exact ⟨e, by rw [he]; rfl⟩

/-- C9 (amended): a fatal error is raised if and only if one of the
validation conditions holds.  `fractional_octave_frequencies` raises
exactly when `freq_range` does not have exactly two entries or its first
entry is greater than its second; `ReconstructingFractionalOctaveBands`
construction raises exactly when `overlap` is outside `[0, 1]`, `slope` is
negative, or its `freq_range` is malformed in the same way (this last
disjunct is the amendment); the IEC helper that produces nominal
frequencies fails exactly for unsupported `num_fractions` outside `{1, 3}`.
In the embedding, errors are `Except.error` results, so no partially
constructed value is ever returned alongside an error. -/
theorem fatal_errors_iff_validation :
    (∀ nf : ℕ, ∀ fr : List ℝ, ∀ rc : Bool,
      (∃ e, fractionalOctaveFrequencies nf fr rc = Except.error e) ↔
        fr.length ≠ 2 ∨ fr.getD 0 0 > fr.getD 1 0) ∧
    (∀ nf : ℕ, ∀ fr : List ℝ, ∀ overlap : ℝ, ∀ slope : ℤ,
      ∀ nsamp : ℕ, ∀ sr : ℝ,
      (∃ e, mkReconstructingBands nf fr overlap slope nsamp sr
          = Except.error e) ↔
        overlap < 0 ∨ 1 < overlap ∨ slope < 0 ∨ fr.length ≠ 2
          ∨ fr.getD 0 0 > fr.getD 1 0) ∧
    (∀ nf : ℕ,
      (∃ e, centerFrequenciesIEC nf = Except.error e) ↔ nf ≠ 1 ∧ nf ≠ 3) :=
  ⟨fof_error_iff, recon_error_iff, centerFrequenciesIEC_error_iff⟩

/-- Counterexample to C9 as stated: with `overlap = 1/2` in `[0, 1]` and
`slope = 0` nonnegative, `ReconstructingFractionalOctaveBands` construction
still raises, because `freq_range = (5, 2)` is decreasing and the
validation of `fractional_octave_frequencies` propagates. -/
theorem recon_error_without_param_violation :
    (∃ e, mkReconstructingBands 1 [5, 2] (1 / 2) 0 16 100
        = Except.error e) ∧
    ¬((1 / 2 : ℝ) < 0 ∨ 1 < (1 / 2 : ℝ) ∨ (0 : ℤ) < 0) := by
  constructor
  · refine (recon_error_iff 1 [5, 2] (1 / 2) 0 16 100).mpr ?_
    have h52 : ([5, 2] : List ℝ).getD 0 0 > ([5, 2] : List ℝ).getD 1 0 := by
      simp only [List.getD_cons_succ, List.getD_cons_zero]
      norm_num
    tauto
  · push_neg
    refine ⟨by norm_num, by norm_num, le_refl 0⟩

theorem iecExact_pos (nf : ℕ) (nominal : List ℝ) :
    ∀ f ∈ iecExact nf nominal, 0 < f := by
  intro f hf
  unfold iecExact at hf
  split_ifs at hf <;>
    · obtain ⟨nom, hnom, rfl⟩ := List.mem_map.mp hf
      exact mul_pos (by norm_num) (Real.rpow_pos_of_pos octaveG_pos _)

theorem exactCenterFrequencies_pos (nf : ℕ) (lo hi : ℝ) :
    ∀ f ∈ exactCenterFrequencies nf lo hi, 0 < f := by
  intro f hf
  unfold exactCenterFrequencies at hf
  obtain ⟨i, hi2, rfl⟩ := List.mem_map.mp hf
  exact mul_pos (by norm_num) (Real.rpow_pos_of_pos (by norm_num) _)

theorem centerFrequenciesIEC_ok_shape (nf : ℕ) (p : List ℝ × List ℝ)
    (h : centerFrequenciesIEC nf = Except.ok p) : p.2 = iecExact nf p.1 := by
  unfold centerFrequenciesIEC at h
  split_ifs at h
  · injection h with h'
    subst h'
    rfl
  · injection h with h'
    subst h'
    rfl

theorem fof_exact_pos (nf : ℕ) (fr : List ℝ) (rc : Bool) (r : FreqResult)
    (h : fractionalOctaveFrequencies nf fr rc = Except.ok r) :
    ∀ f ∈ r.exact, 0 < f := by
  unfold fractionalOctaveFrequencies at h
  by_cases hlen : fr.length ≠ 2
  · rw [if_pos hlen] at h
    exact Except.noConfusion h
  · rw [if_neg hlen] at h
    by_cases hgt : fr.getD 0 0 > fr.getD 1 0
    · rw [if_pos hgt] at h
      exact Except.noConfusion h
    · rw [if_neg hgt] at h
      by_cases h13 : nf = 1 ∨ nf = 3
      · rw [if_pos h13] at h
        rcases hx : centerFrequenciesIEC nf with e | p <;> rw [hx] at h
        · exact Except.noConfusion h
        · have hshape := centerFrequenciesIEC_ok_shape nf p hx
          simp only [Except.map] at h
          injection h with h'
          subst h'
          intro f hf
          simp only [apply_ite FreqResult.exact, ite_self] at hf
          obtain ⟨q, hq, rfl⟩ := List.mem_map.mp hf
          have hmem := (List.of_mem_zip (List.mem_filter.mp hq).1).2
          rw [hshape] at hmem
          exact iecExact_pos nf p.1 q.2 hmem
      · rw [if_neg h13] at h
        simp only [Except.map] at h
        injection h with h'
        subst h'
        intro f hf
        simp only [apply_ite FreqResult.exact, ite_self] at hf
        exact exactCenterFrequencies_pos nf _ _ f hf

theorem fof_cutoff_shape (nf : ℕ) (fr : List ℝ) (r : FreqResult)
    (h : fractionalOctaveFrequencies nf fr true = Except.ok r) :
    r.cutoff = some
      (r.exact.map (fun f => f * octaveG ^ ((-1 : ℝ) / 2 / (nf : ℝ))),
       r.exact.map (fun f => f * octaveG ^ ((1 : ℝ) / 2 / (nf : ℝ)))) := by
  unfold fractionalOctaveFrequencies at h
  by_cases hlen : fr.length ≠ 2
  · rw [if_pos hlen] at h
    exact Except.noConfusion h
  · rw [if_neg hlen] at h
    by_cases hgt : fr.getD 0 0 > fr.getD 1 0
    · rw [if_pos hgt] at h
      exact Except.noConfusion h
    · rw [if_neg hgt] at h
      by_cases h13 : nf = 1 ∨ nf = 3
      · rw [if_pos h13] at h
        rcases hx : centerFrequenciesIEC nf with e | p <;> rw [hx] at h
        · exact Except.noConfusion h
        · simp only [Except.map] at h
          injection h with h'
          subst h'
          rfl
      · rw [if_neg h13] at h
        simp only [Except.map] at h
        injection h with h'
        subst h'
        rfl

theorem cutoff_bracket (nf : ℕ) (h1 : 1 ≤ nf) (f : ℝ) (hf : 0 < f) :
    f * octaveG ^ ((-1 : ℝ) / 2 / (nf : ℝ)) < f ∧
    f < f * octaveG ^ ((1 : ℝ) / 2 / (nf : ℝ)) ∧
    f = Real.sqrt ((f * octaveG ^ ((-1 : ℝ) / 2 / (nf : ℝ))) *
      (f * octaveG ^ ((1 : ℝ) / 2 / (nf : ℝ)))) := by
  have hnf : (0 : ℝ) < (nf : ℝ) := by
    exact_mod_cast Nat.lt_of_lt_of_le Nat.zero_lt_one h1
  have haneg : (-1 : ℝ) / 2 / (nf : ℝ) < 0 :=
    div_neg_of_neg_of_pos (by norm_num) hnf
  have hapos : 0 < (1 : ℝ) / 2 / (nf : ℝ) := by positivity
  have hGlt : octaveG ^ ((-1 : ℝ) / 2 / (nf : ℝ)) < 1 :=
    Real.rpow_lt_one_of_one_lt_of_neg one_lt_octaveG haneg
  have hGgt : 1 < octaveG ^ ((1 : ℝ) / 2 / (nf : ℝ)) :=
    (Real.one_lt_rpow_iff_of_pos octaveG_pos).mpr
      (Or.inl ⟨one_lt_octaveG, hapos⟩)
  have hXY : octaveG ^ ((-1 : ℝ) / 2 / (nf : ℝ)) *
      octaveG ^ ((1 : ℝ) / 2 / (nf : ℝ)) = 1 := by
    rw [← Real.rpow_add octaveG_pos]
    have hsum : (-1 : ℝ) / 2 / (nf : ℝ) + (1 : ℝ) / 2 / (nf : ℝ) = 0 := by
      ring
    rw [hsum, Real.rpow_zero]
  refine ⟨?_, ?_, ?_⟩
  · nlinarith
  · nlinarith
  · have hprod : (f * octaveG ^ ((-1 : ℝ) / 2 / (nf : ℝ))) *
        (f * octaveG ^ ((1 : ℝ) / 2 / (nf : ℝ))) = f ^ 2 := by
      calc (f * octaveG ^ ((-1 : ℝ) / 2 / (nf : ℝ))) *
            (f * octaveG ^ ((1 : ℝ) / 2 / (nf : ℝ)))
          = f ^ 2 * (octaveG ^ ((-1 : ℝ) / 2 / (nf : ℝ)) *
              octaveG ^ ((1 : ℝ) / 2 / (nf : ℝ))) := by ring
        _ = f ^ 2 := by rw [hXY, mul_one]
    rw [hprod, Real.sqrt_sq hf.le]

/-- C6: for `num_fractions >= 1` and every successfully computed frequency
grid, the cutoffs returned with `return_cutoff=True` are
`lower = exact * G^(-1/(2*num_fractions))` and
`upper = exact * G^(1/(2*num_fractions))` with `G = 10^(3/10)` (the source
writes the exponents as `(-1/2)/num_fractions` and `(1/2)/num_fractions`),
hence for every band `lower < exact < upper` and
`exact = sqrt(lower * upper)` exactly over the reals. -/
theorem cutoff_frequencies_relation (nf : ℕ) (fr : List ℝ) (r : FreqResult)
    (h1 : 1 ≤ nf)
    (h2 : fractionalOctaveFrequencies nf fr true = Except.ok r) :
    r.cutoff = some
      (r.exact.map (fun f => f * octaveG ^ ((-1 : ℝ) / 2 / (nf : ℝ))),
       r.exact.map (fun f => f * octaveG ^ ((1 : ℝ) / 2 / (nf : ℝ)))) ∧
    ∀ f ∈ r.exact,
      f * octaveG ^ ((-1 : ℝ) / 2 / (nf : ℝ)) < f ∧
      f < f * octaveG ^ ((1 : ℝ) / 2 / (nf : ℝ)) ∧
      f = Real.sqrt ((f * octaveG ^ ((-1 : ℝ) / 2 / (nf : ℝ))) *
        (f * octaveG ^ ((1 : ℝ) / 2 / (nf : ℝ)))) :=
  ⟨fof_cutoff_shape nf fr r h2,
   fun f hf => cutoff_bracket nf h1 f (fof_exact_pos nf fr true r h2 f hf)⟩

/-- Witness for C6 at `num_fractions = 2`, `freq_range = (1000, 1000)`. -/
theorem cutoff_frequencies_relation_witness :
    ∃ r, fractionalOctaveFrequencies 2 [1000, 1000] true = Except.ok r ∧
      (r.cutoff = some
        (r.exact.map (fun f => f * octaveG ^ ((-1 : ℝ) / 2 / (2 : ℕ))),
         r.exact.map (fun f => f * octaveG ^ ((1 : ℝ) / 2 / (2 : ℕ)))) ∧
      ∀ f ∈ r.exact,
        f * octaveG ^ ((-1 : ℝ) / 2 / (2 : ℕ)) < f ∧
        f < f * octaveG ^ ((1 : ℝ) / 2 / (2 : ℕ)) ∧
        f = Real.sqrt ((f * octaveG ^ ((-1 : ℝ) / 2 / (2 : ℕ))) *
          (f * octaveG ^ ((1 : ℝ) / 2 / (2 : ℕ))))) := by
  obtain ⟨r, hr⟩ := fof_ok_of_valid 2 [1000, 1000] true (by simp)
    (by simp only [List.getD_cons_succ, List.getD_cons_zero]; norm_num)
  exact ⟨r, hr, cutoff_frequencies_relation 2 [1000, 1000] r (by norm_num) hr⟩

theorem fof_nonIEC_shape (nf : ℕ) (fr : List ℝ) (rc : Bool)
    (r : FreqResult) (hn1 : nf ≠ 1) (hn3 : nf ≠ 3)
    (h : fractionalOctaveFrequencies nf fr rc = Except.ok r) :
    r.nominal = none ∧
    r.exact = exactCenterFrequencies nf (fr.getD 0 0) (fr.getD 1 0) := by
  unfold fractionalOctaveFrequencies at h
  by_cases hlen : fr.length ≠ 2
  · rw [if_pos hlen] at h
    exact Except.noConfusion h
  · rw [if_neg hlen] at h
    by_cases hgt : fr.getD 0 0 > fr.getD 1 0
    · rw [if_pos hgt] at h
      exact Except.noConfusion h
    · rw [if_neg hgt, if_neg (by tauto : ¬ (nf = 1 ∨ nf = 3))] at h
      simp only [Except.map] at h
      injection h with h'
      subst h'
      constructor
      · simp only [apply_ite FreqResult.nominal, ite_self]
      · simp only [apply_ite FreqResult.exact, ite_self]

/-- C8: for `num_fractions` outside `{1, 3}` (and at least 1, where the
embedding is faithful), a successful call returns no nominal frequencies
(`None` in the source, modelled as `none`) and exact center frequencies
`1000 * 2^(i/num_fractions)` for the integers `i` from
`-round(num_fractions*log2(1000/low))` through
`round(num_fractions*log2(high/1000))` inclusive. -/
theorem exact_frequencies_log_spaced (nf : ℕ) (fr : List ℝ) (rc : Bool)
    (r : FreqResult) (h1 : 1 ≤ nf) (hn1 : nf ≠ 1) (hn3 : nf ≠ 3)
    (h : fractionalOctaveFrequencies nf fr rc = Except.ok r) :
    r.nominal = none ∧
    r.exact = (arangeZ
        (-(npRound ((nf : ℝ) * Real.logb 2 (1000 / fr.getD 0 0))))
        (npRound ((nf : ℝ) * Real.logb 2 (fr.getD 1 0 / 1000)) + 1)).map
      (fun i : ℤ => 1000 * (2 : ℝ) ^ ((i : ℝ) / (nf : ℝ))) :=
  fof_nonIEC_shape nf fr rc r hn1 hn3 h

/-- Witness for C8 at `num_fractions = 2`, `freq_range = (1000, 2000)`. -/
theorem exact_frequencies_log_spaced_witness :
    ∃ r, fractionalOctaveFrequencies 2 [1000, 2000] false = Except.ok r ∧
      r.nominal = none ∧
      r.exact = (arangeZ
          (-(npRound ((2 : ℕ) *
            Real.logb 2 (1000 / ([1000, 2000] : List ℝ).getD 0 0))))
          (npRound ((2 : ℕ) *
            Real.logb 2 (([1000, 2000] : List ℝ).getD 1 0 / 1000)) + 1)).map
        (fun i : ℤ => 1000 * (2 : ℝ) ^ ((i : ℝ) / ((2 : ℕ) : ℝ))) := by
  obtain ⟨r, hr⟩ := fof_ok_of_valid 2 [1000, 2000] false (by simp)
    (by simp only [List.getD_cons_succ, List.getD_cons_zero]; norm_num)
  exact ⟨r, hr, exact_frequencies_log_spaced 2 [1000, 2000] false r
    (by norm_num) (by norm_num) (by norm_num) hr⟩

theorem fof_nominal_shape (nf : ℕ) (fr : List ℝ) (rc : Bool)
    (r : FreqResult) (p : List ℝ × List ℝ)
    (h : fractionalOctaveFrequencies nf fr rc = Except.ok r)
    (h13 : nf = 1 ∨ nf = 3) (hp : centerFrequenciesIEC nf = Except.ok p) :
    r.nominal = some (p.1.filter
      (fun x => decide (fr.getD 0 0 ≤ x ∧ x ≤ fr.getD 1 0))) := by
  unfold fractionalOctaveFrequencies at h
  by_cases hlen : fr.length ≠ 2
  · rw [if_pos hlen] at h
    exact Except.noConfusion h
  · rw [if_neg hlen] at h
    by_cases hgt : fr.getD 0 0 > fr.getD 1 0
    · rw [if_pos hgt] at h
      exact Except.noConfusion h
    · rw [if_neg hgt, if_pos h13, hp] at h
      simp only [Except.map] at h
      injection h with h'
      subst h'
      simp only [apply_ite FreqResult.nominal, ite_self]

/-- C7: the nominal outputs for octave bands over (20, 20000), third-octave
bands over (20, 20000), and octave bands over (100, 4000) are exactly the
fixed standard tables filtered to nominal values inside the range
(inclusive). -/
theorem nominal_table_fidelity :
    (∃ r, fractionalOctaveFrequencies 1 [20, 20000] false = Except.ok r ∧
      r.nominal = some [31.5, 63, 125, 250, 500, 1000, 2000, 4000, 8000,
        16000]) ∧
    (∃ r, fractionalOctaveFrequencies 3 [20, 20000] false = Except.ok r ∧
      r.nominal = some [25, 31.5, 40, 50, 63, 80, 100, 125, 160,
        200, 250, 315, 400, 500, 630, 800, 1000,
        1250, 1600, 2000, 2500, 3150, 4000, 5000,
        6300, 8000, 10000, 12500, 16000, 20000]) ∧
    (∃ r, fractionalOctaveFrequencies 1 [100, 4000] false = Except.ok r ∧
      r.nominal = some [125, 250, 500, 1000, 2000, 4000]) := by
  refine ⟨?_, ?_, ?_⟩
  · obtain ⟨r, hr⟩ := fof_ok_of_valid 1 [20, 20000] false (by simp)
      (by simp only [List.getD_cons_succ, List.getD_cons_zero]; norm_num)
    refine ⟨r, hr, ?_⟩
    rw [fof_nominal_shape 1 [20, 20000] false r
      (nominalOctaves, iecExact 1 nominalOctaves) hr (Or.inl rfl) rfl]
    simp only [List.getD_cons_succ, List.getD_cons_zero]
    norm_num [nominalOctaves, List.filter]
  · obtain ⟨r, hr⟩ := fof_ok_of_valid 3 [20, 20000] false (by simp)
      (by simp only [List.getD_cons_succ, List.getD_cons_zero]; norm_num)
    refine ⟨r, hr, ?_⟩
    rw [fof_nominal_shape 3 [20, 20000] false r
      (nominalThirdOctaves, iecExact 3 nominalThirdOctaves) hr (Or.inr rfl)
      rfl]
    simp only [List.getD_cons_succ, List.getD_cons_zero]
    norm_num [nominalThirdOctaves, List.filter]
  · obtain ⟨r, hr⟩ := fof_ok_of_valid 1 [100, 4000] false (by simp)
      (by simp only [List.getD_cons_succ, List.getD_cons_zero]; norm_num)
    refine ⟨r, hr, ?_⟩
    rw [fof_nominal_shape 1 [100, 4000] false r
      (nominalOctaves, iecExact 1 nominalOctaves) hr (Or.inl rfl) rfl]
    simp only [List.getD_cons_succ, List.getD_cons_zero]
    norm_num [nominalOctaves, List.filter]

theorem length_filter_partition (p : α → Bool) (l : List α) :
    (l.filter p).length + (l.filter (fun a => !p a)).length = l.length := by
  induction l with
  | nil => rfl
  | cons a l ih =>
    by_cases h : p a <;> simp [List.filter_cons, h] <;> omega

theorem getD_map_of_lt {α β : Type} (f : α → β) (l : List α) (i : ℕ)
    (h : i < l.length) (d : α) (d' : β) :
    (l.map f).getD i d' = f (l.getD i d) := by
  rw [List.getD_eq_getElem l d h, List.getD_eq_getElem _ d' (by simpa using h),
    List.getElem_map]

/-- C3: in `FractionalOctaveBands._get_coefficients`, a band is dropped
exactly when its normalized lower edge is `>= 1` (`sosKept` is the filter
of `sosWns` by that predicate), with a non-fatal diagnostic when any band
is dropped; every kept band with normalized upper edge above 1 is the
high-pass design at the lower edge padded with identity biquads
`[1,0,0,1,0,0]` up to exactly `order` sections, and every other kept band
is the band-pass design with `order` sections, so the output tensor has
uniform shape `(num_kept, order, 6)`.  The function is total (no
exception), given any designers with scipy's section counts. -/
theorem sos_bank_structure
    (butterBand : ℕ → ℝ → ℝ → List (List ℝ))
    (butterHigh : ℕ → ℝ → List (List ℝ))
    (fl fu : List ℝ) (sr : ℝ) (order : ℕ)
    (hBPlen : ∀ n : ℕ, ∀ lo hi : ℝ, (butterBand n lo hi).length = n)
    (hBP6 : ∀ n : ℕ, ∀ lo hi : ℝ, ∀ row ∈ butterBand n lo hi,
      row.length = 6)
    (hHPlen : ∀ n : ℕ, ∀ w : ℝ, (butterHigh n w).length = (n + 1) / 2)
    (hHP6 : ∀ n : ℕ, ∀ w : ℝ, ∀ row ∈ butterHigh n w, row.length = 6) :
    (sosBankCoefficients butterBand butterHigh fl fu sr order).sos.length
      = (sosKept fl fu sr).length ∧
    (∀ band ∈ (sosBankCoefficients butterBand butterHigh fl fu sr
        order).sos, band.length = order ∧ ∀ row ∈ band, row.length = 6) ∧
    (∀ i, i < (sosKept fl fu sr).length →
      (sosBankCoefficients butterBand butterHigh fl fu sr order).sos.getD
          i []
        = (if 1 < ((sosKept fl fu sr).getD i (0, 0)).2 then
            extendSosCoefficients
              (butterHigh order ((sosKept fl fu sr).getD i (0, 0)).1) order
          else butterBand order ((sosKept fl fu sr).getD i (0, 0)).1
            ((sosKept fl fu sr).getD i (0, 0)).2)) ∧
    ((sosKept fl fu sr).length ≠ (sosWns fl fu sr).length →
      "Skipping bands above the Nyquist frequency"
        ∈ (sosBankCoefficients butterBand butterHigh fl fu sr
            order).warnings) := by
  have hsos : (sosBankCoefficients butterBand butterHigh fl fu sr
      order).sos = (sosKept fl fu sr).map (fun w =>
        if 1 < w.2 then
          extendSosCoefficients (butterHigh order w.1) order
        else butterBand order w.1 w.2) := rfl
  have hbandshape : ∀ w : ℝ × ℝ,
      (if 1 < w.2 then extendSosCoefficients (butterHigh order w.1) order
       else butterBand order w.1 w.2).length = order ∧
      ∀ row ∈ (if 1 < w.2 then
          extendSosCoefficients (butterHigh order w.1) order
        else butterBand order w.1 w.2), row.length = 6 := by
    intro w
    by_cases h2 : 1 < w.2
    · rw [if_pos h2]
      constructor
      · unfold extendSosCoefficients
        rw [List.length_append, List.length_replicate, hHPlen]
        omega
      · intro row hrow
        unfold extendSosCoefficients at hrow
        rcases List.mem_append.mp hrow with hrow | hrow
        · exact hHP6 order w.1 row hrow
        · rw [List.eq_of_mem_replicate hrow]
          rfl
    · rw [if_neg h2]
      exact ⟨hBPlen order w.1 w.2, hBP6 order w.1 w.2⟩
  refine ⟨by rw [hsos, List.length_map], ?_, ?_, ?_⟩
  · intro band hband
    rw [hsos] at hband
    obtain ⟨w, hw, rfl⟩ := List.mem_map.mp hband
    exact hbandshape w
  · intro i hi
    rw [hsos, getD_map_of_lt _ _ i hi (0, 0) []]
  · intro hne
    have hw : (sosBankCoefficients butterBand butterHigh fl fu sr
        order).warnings
        = (if (sosKept fl fu sr).length = (sosWns fl fu sr).length then []
           else ["Skipping bands above the Nyquist frequency"]) ++
          (sosKept fl fu sr).filterMap (fun w =>
            if 1 < w.2 then some "The upper frequency limit is above the Nyquist frequency. Using a highpass filter instead of a bandpass" else none) := rfl
    rw [hw, if_neg hne]
    exact List.mem_append_left _ (List.mem_singleton_self _)

/-- Witness for C3 on concrete data: `sampling_rate = 2`, edges
`fl = [0.2, 2]`, `fu = [0.5, 3]` (the second band is entirely above
Nyquist and dropped, the first is kept), `order = 2`, with stub designers
having scipy's section counts. -/
theorem sos_bank_structure_witness :
    (sosBankCoefficients butterStub butterHighStub [0.2, 2] [0.5, 3] 2
        2).sos.length = (sosKept [0.2, 2] [0.5, 3] 2).length ∧
    (∀ band ∈ (sosBankCoefficients butterStub butterHighStub [0.2, 2]
        [0.5, 3] 2 2).sos, band.length = 2 ∧ ∀ row ∈ band,
        row.length = 6) ∧
    (∀ i, i < (sosKept [0.2, 2] [0.5, 3] 2).length →
      (sosBankCoefficients butterStub butterHighStub [0.2, 2] [0.5, 3] 2
          2).sos.getD i []
        = (if 1 < ((sosKept [0.2, 2] [0.5, 3] 2).getD i (0, 0)).2 then
            extendSosCoefficients
              (butterHighStub 2 ((sosKept [0.2, 2] [0.5, 3] 2).getD i
                (0, 0)).1) 2
          else butterStub 2 ((sosKept [0.2, 2] [0.5, 3] 2).getD i (0, 0)).1
            ((sosKept [0.2, 2] [0.5, 3] 2).getD i (0, 0)).2)) ∧
    ((sosKept [0.2, 2] [0.5, 3] 2).length
        ≠ (sosWns [0.2, 2] [0.5, 3] 2).length →
      "Skipping bands above the Nyquist frequency"
        ∈ (sosBankCoefficients butterStub butterHighStub [0.2, 2] [0.5, 3]
            2 2).warnings) := by
  apply sos_bank_structure
  · intro n lo hi
    unfold butterStub
    exact List.length_replicate n identityBiquad
  · intro n lo hi row hrow
    rw [List.eq_of_mem_replicate hrow]
    rfl
  · intro n w
    unfold butterHighStub
    exact List.length_replicate _ identityBiquad
  · intro n w row hrow
    rw [List.eq_of_mem_replicate hrow]
    rfl

theorem length_filter_pos_iff (p : α → Bool) (l : List α) :
    0 < (l.filter p).length ↔ ∃ a ∈ l, p a = true := by
  induction l with
  | nil => simp
  | cons a l ih =>
    by_cases h : p a <;> simp [List.filter_cons, h, ih]

theorem sosBank_count_facts (butterBand : ℕ → ℝ → ℝ → List (List ℝ))
    (butterHigh : ℕ → ℝ → List (List ℝ)) (fl fu : List ℝ) (sr : ℝ)
    (order : ℕ) :
    (sosBankCoefficients butterBand butterHigh fl fu sr order).sos.length
        + ((sosWns fl fu sr).filter
            (fun w => decide (1 ≤ w.1))).length
      = (sosWns fl fu sr).length ∧
    ((sosBankCoefficients butterBand butterHigh fl fu sr
        order).sos.length < (sosWns fl fu sr).length
      ↔ ∃ w ∈ sosWns fl fu sr, 1 ≤ w.1) ∧
    ("Skipping bands above the Nyquist frequency"
        ∈ (sosBankCoefficients butterBand butterHigh fl fu sr
            order).warnings
      ↔ ∃ w ∈ sosWns fl fu sr, 1 ≤ w.1) := by
  have hsos : (sosBankCoefficients butterBand butterHigh fl fu sr
      order).sos.length = (sosKept fl fu sr).length := by
    rw [show (sosBankCoefficients butterBand butterHigh fl fu sr order).sos
      = (sosKept fl fu sr).map (fun w =>
          if 1 < w.2 then
            extendSosCoefficients (butterHigh order w.1) order
          else butterBand order w.1 w.2) from rfl, List.length_map]
  have hpart : ((sosWns fl fu sr).filter
        (fun w => decide (1 ≤ w.1))).length
      + (sosKept fl fu sr).length = (sosWns fl fu sr).length :=
    length_filter_partition (fun w => decide (1 ≤ w.1)) (sosWns fl fu sr)
  have hex : 0 < ((sosWns fl fu sr).filter
        (fun w => decide (1 ≤ w.1))).length
      ↔ ∃ w ∈ sosWns fl fu sr, 1 ≤ w.1 := by
    rw [length_filter_pos_iff]
    simp only [decide_eq_true_eq]
  refine ⟨by omega, ?_, ?_⟩
  · rw [hsos, ← hex]
    omega
  · have hw : (sosBankCoefficients butterBand butterHigh fl fu sr
        order).warnings
        = (if (sosKept fl fu sr).length = (sosWns fl fu sr).length then []
           else ["Skipping bands above the Nyquist frequency"]) ++
          (sosKept fl fu sr).filterMap (fun w =>
            if 1 < w.2 then some "The upper frequency limit is above the Nyquist frequency. Using a highpass filter instead of a bandpass" else none) := rfl
    rw [hw, ← hex]
    constructor
    · intro hmem
      rcases List.mem_append.mp hmem with hmem | hmem
      · by_cases heq : (sosKept fl fu sr).length = (sosWns fl fu sr).length
        · rw [if_pos heq] at hmem
          exact absurd hmem (List.not_mem_nil _)
        · rw [if_neg heq] at hmem
          omega
      · obtain ⟨w, hwmem, hws⟩ := List.mem_filterMap.mp hmem
        by_cases h2 : 1 < w.2
        · rw [if_pos h2] at hws
          injection hws with hws
          exact absurd hws (by decide)
        · rw [if_neg h2] at hws
          exact Option.noConfusion hws
    · intro hpos
      rw [if_neg (by omega)]
      exact List.mem_append_left _ (List.mem_singleton_self _)

theorem mkFOB_count_facts (butterBand : ℕ → ℝ → ℝ → List (List ℝ))
    (butterHigh : ℕ → ℝ → List (List ℝ)) (nf : ℕ) (sr : ℝ) (fr : List ℝ)
    (order : ℕ) (bank : FOBank)
    (h : mkFractionalOctaveBands butterBand butterHigh nf sr fr order
      = Except.ok bank) :
    bank.nBands = bank.exact_frequencies.length ∧
    ∃ fl fu : List ℝ,
      bank.cutoff_frequencies = some (fl, fu) ∧
      bank.coefficients = sosBankCoefficients butterBand butterHigh fl fu
        sr order ∧
      (sosWns fl fu sr).length = bank.nBands ∧
      bank.coefficients.sos.length
          + ((sosWns fl fu sr).filter (fun w => decide (1 ≤ w.1))).length
        = bank.nBands ∧
      (bank.coefficients.sos.length < bank.nBands
        ↔ ∃ w ∈ sosWns fl fu sr, 1 ≤ w.1) ∧
      ("Skipping bands above the Nyquist frequency"
          ∈ bank.coefficients.warnings
        ↔ ∃ w ∈ sosWns fl fu sr, 1 ≤ w.1) := by
  unfold mkFractionalOctaveBands at h
  rcases hx : fractionalOctaveFrequencies nf fr true with e | r <;>
    rw [hx] at h
  · exact Except.noConfusion h
  · simp only [Except.map] at h
    injection h with h'
    subst h'
    have hcut := fof_cutoff_shape nf fr r hx
    refine ⟨rfl, r.exact.map (fun f =>
        f * octaveG ^ ((-1 : ℝ) / 2 / (nf : ℝ))),
      r.exact.map (fun f => f * octaveG ^ ((1 : ℝ) / 2 / (nf : ℝ))),
      hcut, ?_, ?_, ?_, ?_, ?_⟩
    · show sosBankCoefficients butterBand butterHigh
        (r.cutoff.getD ([], [])).1 (r.cutoff.getD ([], [])).2 sr order = _
      rw [hcut]
      simp only [Option.getD_some]
    · show (sosWns _ _ sr).length = r.exact.length
      unfold sosWns
      rw [List.length_map, List.length_zip, List.length_map,
        List.length_map, min_self]
    · have hfacts := (sosBank_count_facts butterBand butterHigh
        (r.exact.map (fun f => f * octaveG ^ ((-1 : ℝ) / 2 / (nf : ℝ))))
        (r.exact.map (fun f => f * octaveG ^ ((1 : ℝ) / 2 / (nf : ℝ))))
        sr order).1
      have hlen : (sosWns (r.exact.map (fun f =>
          f * octaveG ^ ((-1 : ℝ) / 2 / (nf : ℝ))))
          (r.exact.map (fun f => f * octaveG ^ ((1 : ℝ) / 2 / (nf : ℝ))))
          sr).length = r.exact.length := by
        unfold sosWns
        rw [List.length_map, List.length_zip, List.length_map,
          List.length_map, min_self]
      show (sosBankCoefficients butterBand butterHigh
        (r.cutoff.getD ([], [])).1 (r.cutoff.getD ([], [])).2 sr
          order).sos.length + _ = r.exact.length
      rw [hcut]
      simp only [Option.getD_some]
      omega
    · have hfacts := (sosBank_count_facts butterBand butterHigh
        (r.exact.map (fun f => f * octaveG ^ ((-1 : ℝ) / 2 / (nf : ℝ))))
        (r.exact.map (fun f => f * octaveG ^ ((1 : ℝ) / 2 / (nf : ℝ))))
        sr order).2.1
      have hlen : (sosWns (r.exact.map (fun f =>
          f * octaveG ^ ((-1 : ℝ) / 2 / (nf : ℝ))))
          (r.exact.map (fun f => f * octaveG ^ ((1 : ℝ) / 2 / (nf : ℝ))))
          sr).length = r.exact.length := by
        unfold sosWns
        rw [List.length_map, List.length_zip, List.length_map,
          List.length_map, min_self]
      show (sosBankCoefficients butterBand butterHigh
          (r.cutoff.getD ([], [])).1 (r.cutoff.getD ([], [])).2 sr
          order).sos.length < r.exact.length ↔ _
      rw [hcut]
      simp only [Option.getD_some]
      rw [← hlen]
      exact hfacts
    · have hfacts := (sosBank_count_facts butterBand butterHigh
        (r.exact.map (fun f => f * octaveG ^ ((-1 : ℝ) / 2 / (nf : ℝ))))
        (r.exact.map (fun f => f * octaveG ^ ((1 : ℝ) / 2 / (nf : ℝ))))
        sr order).2.2
      show "Skipping bands above the Nyquist frequency"
          ∈ (sosBankCoefficients butterBand butterHigh
            (r.cutoff.getD ([], [])).1 (r.cutoff.getD ([], [])).2 sr
            order).warnings ↔ _
      rw [hcut]
      simp only [Option.getD_some]
      exact hfacts

/-- C5 (amended): constructing the energy-preserving bank raises no
exception for a well-formed `freq_range`, whatever its relation to the
Nyquist frequency.  The `n_bands` property always reports the unfiltered
band count of the frequency grid, while the SOS tensor's band dimension
equals that count minus the number of bands whose normalized lower edge is
`>= 1`; it is strictly smaller exactly when such bands exist, and exactly
then the skip diagnostic is emitted.  The reduction is thus observable
through the coefficient tensor's band dimension, but not through
`n_bands`. -/
theorem nyquist_band_counts (butterBand : ℕ → ℝ → ℝ → List (List ℝ))
    (butterHigh : ℕ → ℝ → List (List ℝ)) (nf : ℕ) (sr : ℝ) (fr : List ℝ)
    (order : ℕ) (bank : FOBank)
    (h : mkFractionalOctaveBands butterBand butterHigh nf sr fr order
      = Except.ok bank) :
    bank.nBands = bank.exact_frequencies.length ∧
    ∃ fl fu : List ℝ,
      bank.cutoff_frequencies = some (fl, fu) ∧
      bank.coefficients = sosBankCoefficients butterBand butterHigh fl fu
        sr order ∧
      (sosWns fl fu sr).length = bank.nBands ∧
      bank.coefficients.sos.length
          + ((sosWns fl fu sr).filter (fun w => decide (1 ≤ w.1))).length
        = bank.nBands ∧
      (bank.coefficients.sos.length < bank.nBands
        ↔ ∃ w ∈ sosWns fl fu sr, 1 ≤ w.1) ∧
      ("Skipping bands above the Nyquist frequency"
          ∈ bank.coefficients.warnings
        ↔ ∃ w ∈ sosWns fl fu sr, 1 ≤ w.1) :=
  mkFOB_count_facts butterBand butterHigh nf sr fr order bank h

/-- Witness for C5 (amended) at a concrete valid construction. -/
theorem nyquist_band_counts_witness :
    ∃ bank, mkFractionalOctaveBands butterStub butterHighStub 1 100
        [20, 20000] 1 = Except.ok bank ∧
      (bank.nBands = bank.exact_frequencies.length ∧
      ∃ fl fu : List ℝ,
        bank.cutoff_frequencies = some (fl, fu) ∧
        bank.coefficients = sosBankCoefficients butterStub butterHighStub
          fl fu 100 1 ∧
        (sosWns fl fu 100).length = bank.nBands ∧
        bank.coefficients.sos.length
            + ((sosWns fl fu 100).filter
                (fun w => decide (1 ≤ w.1))).length
          = bank.nBands ∧
        (bank.coefficients.sos.length < bank.nBands
          ↔ ∃ w ∈ sosWns fl fu 100, 1 ≤ w.1) ∧
        ("Skipping bands above the Nyquist frequency"
            ∈ bank.coefficients.warnings
          ↔ ∃ w ∈ sosWns fl fu 100, 1 ≤ w.1)) := by
  obtain ⟨r, hr⟩ := fof_ok_of_valid 1 [20, 20000] true (by simp)
    (by simp only [List.getD_cons_succ, List.getD_cons_zero]; norm_num)
  obtain ⟨bank, hbk⟩ : ∃ bank, mkFractionalOctaveBands butterStub
      butterHighStub 1 100 [20, 20000] 1 = Except.ok bank := by
    unfold mkFractionalOctaveBands
    rw [hr]
    exact ⟨_, rfl⟩
  exact ⟨bank, hbk, nyquist_band_counts butterStub butterHighStub 1 100
    [20, 20000] 1 bank hbk⟩

/-- Counterexample to C5 as stated: `num_fractions = 2`,
`freq_range = (1000, 1100)`, `sampling_rate = 1900`.  The upper limit 1100
lies above the Nyquist frequency 950, construction succeeds, but the band
count is not reduced: the single band of the unfiltered grid survives (its
normalized lower edge is below 1), so both `n_bands` and the SOS band
dimension equal the unfiltered count 1. -/
theorem nyquist_count_counterexample :
    ∃ bank, mkFractionalOctaveBands butterStub butterHighStub 2 1900
        [1000, 1100] 1 = Except.ok bank ∧
      (1900 : ℝ) / 2 < 1100 ∧
      bank.nBands = 1 ∧
      bank.coefficients.sos.length = 1 ∧
      ¬ bank.coefficients.sos.length < bank.nBands := by
  obtain ⟨r, hr⟩ := fof_ok_of_valid 2 [1000, 1100] true (by simp)
    (by simp only [List.getD_cons_succ, List.getD_cons_zero]; norm_num)
  have hshape := fof_nonIEC_shape 2 [1000, 1100] true r (by norm_num)
    (by norm_num) hr
  have hcut := fof_cutoff_shape 2 [1000, 1100] r hr
  -- the two index rounds are both zero
  have hNmin : npRound (((2 : ℕ) : ℝ) * Real.logb 2 ((1000 : ℝ) / 1000))
      = 0 := by
    refine npRound_eq_intCast _ 0 ?_
    rw [show (1000 : ℝ) / 1000 = 1 by norm_num, Real.logb_one]
    norm_num
  have hlogb_nonneg : 0 ≤ Real.logb 2 ((1100 : ℝ) / 1000) :=
    Real.logb_nonneg one_lt_two (by norm_num)
  have hub : Real.logb 2 ((1100 : ℝ) / 1000) < 1 / 4 := by
    rw [Real.logb_lt_iff_lt_rpow one_lt_two
      (by norm_num : (0 : ℝ) < 1100 / 1000)]
    have hkey : ((2 : ℝ) ^ ((1 : ℝ) / 4)) ^ (4 : ℕ) = 2 := by
      rw [← Real.rpow_natCast ((2 : ℝ) ^ ((1 : ℝ) / 4)) 4,
        ← Real.rpow_mul (by norm_num : (0 : ℝ) ≤ 2)]
      norm_num
    refine lt_of_pow_lt_pow_left₀ 4 (Real.rpow_nonneg (by norm_num) _) ?_
    rw [hkey]
    norm_num
  have hx1 : 0 ≤ ((2 : ℕ) : ℝ) * Real.logb 2 ((1100 : ℝ) / 1000) :=
    mul_nonneg (by norm_num) hlogb_nonneg
  have hx2 : ((2 : ℕ) : ℝ) * Real.logb 2 ((1100 : ℝ) / 1000) < 1 / 2 := by
    push_cast
    linarith
  have hNmax : npRound (((2 : ℕ) : ℝ) * Real.logb 2 ((1100 : ℝ) / 1000))
      = 0 := by
    have hfl : ⌊((2 : ℕ) : ℝ) * Real.logb 2 ((1100 : ℝ) / 1000)⌋ = 0 := by
      rw [Int.floor_eq_iff]
      push_cast
      constructor <;> linarith
    have hfr : Int.fract (((2 : ℕ) : ℝ) *
        Real.logb 2 ((1100 : ℝ) / 1000)) ≠ 1 / 2 := by
      rw [Int.fract, hfl]
      push_cast
      intro heq
      linarith
    rw [npRound_eq_round _ hfr, round_eq, Int.floor_eq_iff]
    push_cast
    constructor <;> linarith
  -- the unfiltered grid has exactly one band, at 1000 Hz
  have hexact : r.exact
      = [(1000 : ℝ) * (2 : ℝ) ^ (((0 : ℤ) : ℝ) / ((2 : ℕ) : ℝ))] := by
    rw [hshape.2]
    show (arangeZ
        (-(npRound (((2 : ℕ) : ℝ) * Real.logb 2 ((1000 : ℝ) / 1000))))
        (npRound (((2 : ℕ) : ℝ) * Real.logb 2 ((1100 : ℝ) / 1000)) + 1)).map
      (fun i : ℤ => 1000 * (2 : ℝ) ^ ((i : ℝ) / ((2 : ℕ) : ℝ))) = _
    rw [hNmin, hNmax,
      show arangeZ (-(0 : ℤ)) ((0 : ℤ) + 1) = [(0 : ℤ)] from by decide]
    simp only [List.map_cons, List.map_nil]
  have hval : (1000 : ℝ) * (2 : ℝ) ^ (((0 : ℤ) : ℝ) / ((2 : ℕ) : ℝ))
      = 1000 := by
    rw [show ((0 : ℤ) : ℝ) / ((2 : ℕ) : ℝ) = 0 by push_cast; norm_num,
      Real.rpow_zero, mul_one]
  -- obtain the constructed bank explicitly
  obtain ⟨bank, hbk⟩ : ∃ bank, mkFractionalOctaveBands butterStub
      butterHighStub 2 1900 [1000, 1100] 1 = Except.ok bank := by
    unfold mkFractionalOctaveBands
    rw [hr]
    exact ⟨_, rfl⟩
  have hbk' := hbk
  unfold mkFractionalOctaveBands at hbk'
  rw [hr] at hbk'
  simp only [Except.map] at hbk'
  injection hbk' with h'
  have hnb1 : bank.nBands = r.exact.length := by
    rw [← h']
    rfl
  have hcoeff : bank.coefficients
      = sosBankCoefficients butterStub butterHighStub
        (r.exact.map (fun f =>
          f * octaveG ^ ((-1 : ℝ) / 2 / ((2 : ℕ) : ℝ))))
        (r.exact.map (fun f =>
          f * octaveG ^ ((1 : ℝ) / 2 / ((2 : ℕ) : ℝ))))
        1900 1 := by
    rw [← h']
    show sosBankCoefficients butterStub butterHighStub
      (r.cutoff.getD ([], [])).1 (r.cutoff.getD ([], [])).2 1900 1 = _
    rw [hcut]
    simp only [Option.getD_some]
  -- no band is skipped: the single normalized lower edge is below 1
  have hnoskip : ¬ ∃ w ∈ sosWns
      (r.exact.map (fun f =>
        f * octaveG ^ ((-1 : ℝ) / 2 / ((2 : ℕ) : ℝ))))
      (r.exact.map (fun f =>
        f * octaveG ^ ((1 : ℝ) / 2 / ((2 : ℕ) : ℝ)))) 1900, 1 ≤ w.1 := by
    rintro ⟨w, hw, hw1⟩
    unfold sosWns at hw
    obtain ⟨pq, hpq, rfl⟩ := List.mem_map.mp hw
    have hfst := (List.of_mem_zip hpq).1
    obtain ⟨f, hfmem, hfeq⟩ := List.mem_map.mp hfst
    rw [hexact, List.mem_singleton] at hfmem
    subst hfmem
    rw [← hfeq, hval] at hw1
    have he : ((-1 : ℝ) / 2 / ((2 : ℕ) : ℝ)) = -(1 / 4 : ℝ) := by
      push_cast
      norm_num
    rw [he] at hw1
    have hG14 : (20 : ℝ) / 19 < octaveG ^ ((1 : ℝ) / 4) := by
      have hkeyG : (octaveG ^ ((1 : ℝ) / 4)) ^ (4 : ℕ) = octaveG := by
        rw [← Real.rpow_natCast (octaveG ^ ((1 : ℝ) / 4)) 4,
          ← Real.rpow_mul octaveG_pos.le]
        norm_num
      have hkey10 : octaveG ^ (10 : ℕ) = 1000 := by
        unfold octaveG
        rw [← Real.rpow_natCast ((10 : ℝ) ^ ((3 : ℝ) / 10)) 10,
          ← Real.rpow_mul (by norm_num : (0 : ℝ) ≤ 10)]
        norm_num
      refine lt_of_pow_lt_pow_left₀ 4
        (Real.rpow_nonneg octaveG_pos.le _) ?_
      rw [hkeyG]
      refine lt_of_pow_lt_pow_left₀ 10 octaveG_pos.le ?_
      rw [hkey10, ← pow_mul]
      norm_num
    have hGneg : octaveG ^ (-(1 / 4 : ℝ)) < 19 / 20 := by
      rw [Real.rpow_neg octaveG_pos.le]
      have hinv := inv_strictAnti₀ (by norm_num : (0 : ℝ) < 20 / 19) hG14
      rw [show ((20 : ℝ) / 19)⁻¹ = 19 / 20 by norm_num] at hinv
      exact hinv
    linarith
  -- the SOS band dimension equals the unfiltered band count
  have hwnslen : (sosWns
      (r.exact.map (fun f =>
        f * octaveG ^ ((-1 : ℝ) / 2 / ((2 : ℕ) : ℝ))))
      (r.exact.map (fun f =>
        f * octaveG ^ ((1 : ℝ) / 2 / ((2 : ℕ) : ℝ)))) 1900).length
      = r.exact.length := by
    unfold sosWns
    rw [List.length_map, List.length_zip, List.length_map,
      List.length_map, min_self]
  have hcounts := sosBank_count_facts butterStub butterHighStub
    (r.exact.map (fun f =>
      f * octaveG ^ ((-1 : ℝ) / 2 / ((2 : ℕ) : ℝ))))
    (r.exact.map (fun f =>
      f * octaveG ^ ((1 : ℝ) / 2 / ((2 : ℕ) : ℝ)))) 1900 1
  have hsoslen : bank.coefficients.sos.length = r.exact.length := by
    rw [hcoeff]
    have h1 := hcounts.1
    have h2 := hcounts.2.1
    rw [hwnslen] at h1 h2
    have h3 : ¬ bank.coefficients.sos.length < r.exact.length := by
      rw [hcoeff]
      intro hlt
      exact hnoskip (h2.mp hlt)
    rw [hcoeff] at h3
    omega
  have hexlen : r.exact.length = 1 := by
    rw [hexact]
    rfl
  refine ⟨bank, hbk, by norm_num, ?_, ?_, ?_⟩
  · rw [hnb1, hexlen]
  · rw [hsoslen, hexlen]
  · rw [hsoslen, hnb1]
    omega


/-! ### Serialization round trip (`_encode` / `_decode`) -/

/-- Dynamic (Python-typed) value: an integer, a float, or a length-2
sequence. This is enough to distinguish the scalar and array shapes that
`np.asarray` meets in the `freq_range` validation of
`fractional_octave_frequencies` (source lines 639-645). -/
inductive PyVal where
  | int : ℤ → PyVal
  | float : ℚ → PyVal
  | pair : ℚ → ℚ → PyVal

/-- `np.asarray(v).size` for the dynamic values above. -/
def PyVal.asarraySize : PyVal → ℕ
  | .int _ => 1
  | .float _ => 1
  | .pair _ _ => 2

/-- `np.asarray(v)[i]` (scalar values broadcast). -/
def PyVal.item : PyVal → ℕ → ℚ
  | .int n, _ => (n : ℚ)
  | .float q, _ => q
  | .pair a b, i => if i = 0 then a else b

/-- `isinstance(v, int)`. -/
def PyVal.isInt : PyVal → Bool
  | .int _ => true
  | _ => false

/-- The four fields `FractionalOctaveBands._encode` keeps:
`_num_fractions`, `_sampling_rate`, `_freq_range`, `_order`
(source lines 239-254, `__init__` stores them at lines 89-92). -/
structure FOBDict where
  num_fractions : PyVal
  sampling_rate : PyVal
  freq_range : PyVal
  order : PyVal

/-- The `freq_range` validation at the head of
`fractional_octave_frequencies` (source lines 639-645): `np.asarray` of
the argument must have size 2 and be nondecreasing. Reached from
`FractionalOctaveBands.__init__` at lines 94-97 and from
`ReconstructingFractionalOctaveBands.__init__` at lines 371-374. -/
def freqRangeCheck (freq_range : PyVal) : Except String Unit :=
  if freq_range.asarraySize ≠ 2 then
    .error "You need to specify a lower and upper limit frequency."
  else if freq_range.item 1 < freq_range.item 0 then
    .error "The second frequency needs to be higher than the first."
  else .ok ()

/-- `FractionalOctaveBands.__init__(num_fractions, sampling_rate,
freq_range, order)` (source lines 81-106), reduced to the parameter
bookkeeping and the fatal validation it triggers. -/
def fobInit (num_fractions sampling_rate freq_range order : PyVal) :
    Except String FOBDict :=
  (freqRangeCheck freq_range).map (fun _ =>
    ⟨num_fractions, sampling_rate, freq_range, order⟩)

/-- `FractionalOctaveBands._encode` (source lines 239-254): the kept
dictionary is exactly the four stored constructor parameters. -/
def fobEncode (s : FOBDict) : FOBDict := s

/-- `FractionalOctaveBands._decode` (source lines 256-264): the stored
values are passed positionally as `cls(d._num_fractions, d._freq_range,
d._order, d._sampling_rate)`, while `__init__` declares its parameters in
the order `(num_fractions, sampling_rate, freq_range, order)`. -/
def fobDecode (d : FOBDict) : Except String FOBDict :=
  fobInit d.num_fractions d.freq_range d.order d.sampling_rate

/-- The six fields `ReconstructingFractionalOctaveBands._encode` keeps
(source lines 574-589, `__init__` stores them at lines 364-369). -/
structure ReconDict where
  num_fractions : PyVal
  freq_range : PyVal
  overlap : PyVal
  slope : PyVal
  n_samples : PyVal
  sampling_rate : PyVal

/-- `ReconstructingFractionalOctaveBands.__init__(num_fractions,
freq_range, overlap, slope, n_samples, sampling_rate)` (source lines
348-374): the overlap range check, the slope type-and-sign check, then
the `freq_range` validation via `fractional_octave_frequencies`. -/
def reconInit (num_fractions freq_range overlap slope n_samples
    sampling_rate : PyVal) : Except String ReconDict :=
  if overlap.item 0 < 0 ∨ 1 < overlap.item 0 then
    .error "overlap must be between 0 and 1"
  else if slope.isInt = false ∨ slope.item 0 < 0 then
    .error "slope must be a positive integer."
  else
    (freqRangeCheck freq_range).map (fun _ =>
      ⟨num_fractions, freq_range, overlap, slope, n_samples,
        sampling_rate⟩)

/-- `ReconstructingFractionalOctaveBands._encode` (source lines 574-589):
the kept dictionary is exactly the six stored constructor parameters. -/
def reconEncode (s : ReconDict) : ReconDict := s

/-- `ReconstructingFractionalOctaveBands._decode` (source lines 591-600):
the stored values are passed positionally as `cls(d._num_fractions,
d._freq_range, d._sampling_rate, d._overlap, d._slope, d._n_samples)`,
while `__init__` declares its parameters in the order `(num_fractions,
freq_range, overlap, slope, n_samples, sampling_rate)`. -/
def reconDecode (d : ReconDict) : Except String ReconDict :=
  reconInit d.num_fractions d.freq_range d.sampling_rate d.overlap
    d.slope d.n_samples

/-- C4: the claimed round trip fails on the code. `_decode` passes the
stored values positionally in the wrong order to `__init__`, so decoding
an encoded `FractionalOctaveBands` puts the scalar `_order` into the
`freq_range` slot and raises the size-2 `ValueError` whenever `_order` is
a scalar (it is an `int` on every constructor path), and decoding an
encoded `ReconstructingFractionalOctaveBands` puts `_sampling_rate` into
the `overlap` slot and raises the overlap-range `ValueError` whenever the
sampling rate exceeds 1 Hz. Decoding therefore never reproduces the
instance. -/
theorem decode_of_encode_always_raises :
    (∀ d : FOBDict, d.order.asarraySize = 1 →
      fobDecode (fobEncode d)
        = .error "You need to specify a lower and upper limit frequency.")
    ∧ (∀ d : ReconDict, 1 < d.sampling_rate.item 0 →
      reconDecode (reconEncode d)
        = .error "overlap must be between 0 and 1") := by
  constructor
  · intro d h
    obtain ⟨nf, sr, fr, od⟩ := d
    cases od with
    | int n => rfl
    | float q => rfl
    | pair a b => simp [PyVal.asarraySize] at h
  · intro d h
    obtain ⟨nf, fr, ov, sl, ns, sr⟩ := d
    have h' : (1 : ℚ) < sr.item 0 := h
    show reconInit nf fr sr ov sl ns = _
    unfold reconInit
    rw [if_pos (Or.inr h')]

/-- C4 witness: both decodes raise at the default constructor values
(`FractionalOctaveBands(1, 44100, (20.0, 20e3), 14)` and
`ReconstructingFractionalOctaveBands(1, (63, 16000), 1, 0, 2**12,
44100)`). -/
theorem decode_of_encode_always_raises_witness :
    fobDecode (fobEncode ⟨.int 1, .int 44100, .pair 20 20000, .int 14⟩)
      = .error "You need to specify a lower and upper limit frequency."
    ∧ reconDecode (reconEncode ⟨.int 1, .pair 63 16000, .int 1, .int 0,
        .int 4096, .int 44100⟩)
      = .error "overlap must be between 0 and 1" :=
  ⟨decode_of_encode_always_raises.1 _ rfl,
   decode_of_encode_always_raises.2 _ (by norm_num [PyVal.item])⟩

/-! ### Determinism of the design functions -/

/-- C10: both design functions are deterministic. In the embedding,
`sosBankCoefficients` (the body of `FractionalOctaveBands._get_coefficients`)
and `reconCoefficients` (the body of
`ReconstructingFractionalOctaveBands._get_coefficients`) are pure
functions of their arguments alone, mirroring the source, which reads
only its parameters and local variables; two calls with identical
arguments yield exactly equal outputs. -/
theorem design_coefficients_deterministic
    (bb bb' : ℕ → ℝ → ℝ → List (List ℝ))
    (bh bh' : ℕ → ℝ → List (List ℝ))
    (fl fl' fu fu' : List ℝ) (sr sr' : ℝ) (od od' : ℕ)
    (nf nf' : ℕ) (fr fr' : List ℝ) (ov ov' : ℝ) (sl sl' : ℕ)
    (ns ns' : ℕ) (rs rs' : ℝ)
    (h1 : bb = bb') (h2 : bh = bh') (h3 : fl = fl') (h4 : fu = fu')
    (h5 : sr = sr') (h6 : od = od') (h7 : nf = nf') (h8 : fr = fr')
    (h9 : ov = ov') (h10 : sl = sl') (h11 : ns = ns') (h12 : rs = rs') :
    sosBankCoefficients bb bh fl fu sr od
      = sosBankCoefficients bb' bh' fl' fu' sr' od'
    ∧ reconCoefficients nf fr ov sl ns rs
      = reconCoefficients nf' fr' ov' sl' ns' rs' := by
  subst h1 h2 h3 h4 h5 h6 h7 h8 h9 h10 h11 h12
  exact ⟨rfl, rfl⟩

/-- C10 witness: the determinism theorem applied at concrete arguments. -/
theorem design_coefficients_deterministic_witness :
    sosBankCoefficients butterStub butterHighStub [0.2] [0.5] 2 1
      = sosBankCoefficients butterStub butterHighStub [0.2] [0.5] 2 1
    ∧ reconCoefficients 1 [63, 16000] 1 0 16 44100
      = reconCoefficients 1 [63, 16000] 1 0 16 44100 :=
  design_coefficients_deterministic butterStub butterStub
    butterHighStub butterHighStub [0.2] [0.2] [0.5] [0.5] 2 2 1 1 1 1
    [63, 16000] [63, 16000] 1 1 0 0 16 16 44100 44100
    rfl rfl rfl rfl rfl rfl rfl rfl rfl rfl rfl rfl

end Pyfar
